import Mathlib

/-!
# dicephrase: passphrase generator (generator/generator.go)

A shallow embedding of the Go package `generator` and the properties of its
passphrase-generation algorithm.

Modelling conventions

* A Go `string` is a `Str`, a sequence of bytes.  The characters that
  `strings.Count(s, "")` counts and that `strings.Fields` tests for white space
  are the runes of the UTF-8 decoding of Go (`runeWidth`, `runeValue`), in which
  a byte that starts no valid sequence is a rune of its own.
* A Go `error` value is an `Option Str`: `none` is `nil`, `some msg` is an error
  whose `Error()` text is `msg`.  A Go result pair `(string, error)` is the
  product `Str × Option Str`.
* A call either returns, stops with a run-time panic, or is still running when
  the step budget of the model (`fuel`) is used up: see `Outcome`.
* The file system is a function from a path to the outcome of `ioutil.ReadFile`.
* The entropy source `crypto/rand.Reader` is an oracle `Entropy`; the state of
  the random source is the number of draws made so far.
-/

namespace Dicephrase

/-- A byte. -/
abbrev Byte := Fin 256

/-- A Go string, as its sequence of bytes. -/
abbrev Str := List Byte

/-- A Go `error`: `none` is `nil`, `some msg` an error with text `msg`. -/
abbrev GoError := Option Str

/-- The ways a call can end: it returns a value, it panics, or the step budget
of the model ran out before it returned. -/
inductive Outcome (α : Type) where
  | ret (a : α)
  | panic
  | diverge
  deriving DecidableEq, Repr

/-! ## String constants -/

/-- The byte with the value `n` (modulo 256). -/
def byte (n : Nat) : Byte := ⟨n % 256, Nat.mod_lt _ (by decide)⟩

/-- The UTF-8 encoding of the code point `n`. -/
def encodeRune (n : Nat) : Str :=
  if n < 0x80 then [byte n]
  else if n < 0x800 then [byte (0xC0 + n / 64), byte (0x80 + n % 64)]
  else if n < 0x10000 then
    [byte (0xE0 + n / 4096), byte (0x80 + n / 64 % 64), byte (0x80 + n % 64)]
  else
    [byte (0xF0 + n / 262144), byte (0x80 + n / 4096 % 64), byte (0x80 + n / 64 % 64),
      byte (0x80 + n % 64)]

/-- The bytes of a string constant of the Go source (its UTF-8 encoding). -/
def bytesOf (s : String) : Str := s.toList.flatMap fun c => encodeRune c.toNat

/-! ## The parts of the Go standard library the package uses -/

/-- A continuation byte of UTF-8: `0x80`..`0xBF`. -/
def isCont (b : Byte) : Bool := 0x80 ≤ b.val && b.val ≤ 0xBF

/-- The number of bytes that the first byte `n` of a UTF-8 sequence announces
(the table `first` of `unicode/utf8`); 1 for an ASCII byte, 0 for a byte that
cannot start a sequence. -/
def leadSize (n : Nat) : Nat :=
  if n < 0x80 then 1
  else if n < 0xC2 then 0
  else if n < 0xE0 then 2
  else if n < 0xF0 then 3
  else if n < 0xF5 then 4
  else 0

/-- The second byte `b` is accepted behind the first byte `n` (the table
`acceptRanges` of `unicode/utf8`). -/
def accepts (n : Nat) (b : Byte) : Bool :=
  (if n = 0xE0 then 0xA0 else if n = 0xF0 then 0x90 else 0x80) ≤ b.val &&
    b.val ≤ (if n = 0xED then 0x9F else if n = 0xF4 then 0x8F else 0xBF)

/-- The width of the rune that starts with a byte of value `n` followed by `t`, as
`utf8.DecodeRuneInString` and the `range` loop over a string give it: the
length of a valid sequence, and 1 for a byte that starts no valid sequence. -/
def seqWidth (n : Nat) (t : Str) : Nat :=
  match leadSize n, t with
  | 2, b1 :: _ => if accepts n b1 then 2 else 1
  | 3, b1 :: b2 :: _ => if accepts n b1 && isCont b2 then 3 else 1
  | 4, b1 :: b2 :: b3 :: _ => if accepts n b1 && isCont b2 && isCont b3 then 4 else 1
  | _, _ => 1

/-- The width of the rune at the start of `s`. -/
def runeWidth : Str → Nat
  | [] => 0
  | b0 :: t => seqWidth b0.val t

/-- The rune that starts with a byte of value `n` followed by `t`; `0xFFFD`
(`utf8.RuneError`) for a byte that starts no valid sequence. -/
def seqValue (n : Nat) (t : Str) : Nat :=
  match seqWidth n t, t with
  | 2, b1 :: _ => n % 32 * 64 + b1.val % 64
  | 3, b1 :: b2 :: _ => n % 16 * 4096 + b1.val % 64 * 64 + b2.val % 64
  | 4, b1 :: b2 :: b3 :: _ =>
    n % 8 * 262144 + b1.val % 64 * 4096 + b2.val % 64 * 64 + b3.val % 64
  | _, _ => if n < 0x80 then n else 0xFFFD

/-- The rune at the start of `s`. -/
def runeValue : Str → Nat
  | [] => 0xFFFD
  | b0 :: t => seqValue b0.val t

/-- The loop of `utf8.RuneCountInString`: `k` bytes of the current rune are still
to be passed. -/
def runeCountLoop : Str → Nat → Nat
  | [], _ => 0
  | _ :: s, k + 1 => runeCountLoop s k
  | b :: s, 0 => 1 + runeCountLoop s (runeWidth (b :: s) - 1)

/-- `utf8.RuneCountInString(s)`: the number of characters of `s`. -/
def runeCount (s : Str) : Nat := runeCountLoop s 0

/-- The loop of `explode`: the byte sequences of the runes of `s`; `k` bytes of
the current rune `cur` (reversed) are still to be read. -/
def runesLoop : Str → Nat → Str → List Str
  | [], _, cur => if cur.isEmpty then [] else [cur.reverse]
  | b :: s, k + 1, cur => runesLoop s k (b :: cur)
  | b :: s, 0, cur =>
    if cur.isEmpty then runesLoop s (runeWidth (b :: s) - 1) [b]
    else cur.reverse :: runesLoop s (runeWidth (b :: s) - 1) [b]

/-- `strings.HasPrefix(s, sub)`. -/
def HasPrefix : Str → Str → Bool
  | _, [] => true
  | [], _ :: _ => false
  | c :: s, d :: sub => c == d && HasPrefix s sub

/-- `strings.Contains(s, sub)`: `sub` occurs in `s` as a contiguous substring. -/
def Contains : Str → Str → Bool
  | [], sub => HasPrefix [] sub
  | c :: s, sub => HasPrefix (c :: s) sub || Contains s sub

/-- The first occurrence of `sep` in `s`, as the text before it and the text
after it (`strings.Index` followed by the two slicings of `genSplit`). -/
def cut (sep : Str) : Str → Option (Str × Str)
  | [] => if HasPrefix [] sep then some ([], []) else none
  | c :: s =>
    if HasPrefix (c :: s) sep then some ([], (c :: s).drop sep.length)
    else match cut sep s with
      | some (a, b) => some (c :: a, b)
      | none => none

/-- The loop of `genSplit`: cut at the leftmost separator, continue in the rest. -/
def splitLoop (sep : Str) : Nat → Str → List Str
  | 0, s => [s]
  | n + 1, s =>
    match cut sep s with
    | some (a, b) => a :: splitLoop sep n b
    | none => [s]

/-- `strings.Split(s, sep)`: for an empty separator the string is exploded into
its runes, otherwise it is cut at every non-overlapping occurrence of `sep`,
leftmost first (at most `s.length` cuts can happen). -/
def Split (s sep : Str) : List Str :=
  if sep = [] then runesLoop s 0 [] else splitLoop sep s.length s

/-- `strings.Join(elems, sep)`. -/
def Join : List Str → Str → Str
  | [], _ => []
  | [a], _ => a
  | a :: b :: rest, sep => a ++ sep ++ Join (b :: rest) sep

/-- Number of non-overlapping occurrences of a non-empty `sub` in `s`. -/
def countLoop (sub : Str) : Nat → Str → Nat
  | 0, _ => 0
  | n + 1, s =>
    match cut sub s with
    | some (_, b) => 1 + countLoop sub n b
    | none => 0

/-- `strings.Count(s, sub)`: for the empty `sub` it is the rune count plus one. -/
def Count (s sub : Str) : Int :=
  if sub = [] then (runeCount s : Int) + 1 else (countLoop sub s.length s : Int)

/-- `unicode.IsSpace`: the runes of the Unicode White_Space property. -/
def isSpace (n : Nat) : Bool :=
  (9 ≤ n && n ≤ 13) || n == 32 || n == 0x85 || n == 0xA0 || n == 0x1680 ||
    (0x2000 ≤ n && n ≤ 0x200A) || n == 0x2028 || n == 0x2029 || n == 0x202F ||
    n == 0x205F || n == 0x3000

/-- The table `asciiSpace` of the package `strings`: tab, line feed, vertical tab,
form feed, carriage return, space. -/
def isAsciiSpace (c : Byte) : Bool := (9 ≤ c.val && c.val ≤ 13) || c.val == 32

/-- The scan of `strings.Fields` (`FieldsFunc` with `unicode.IsSpace`, which the
ASCII fast path agrees with): `k` bytes of the current rune are still to be
passed, `sp` tells whether that rune is white space, `cur` is the field being
read, reversed. -/
def fieldsLoop : Str → Nat → Bool → Str → List Str
  | [], _, _, cur => if cur.isEmpty then [] else [cur.reverse]
  | b :: s, k + 1, sp, cur =>
    if sp then fieldsLoop s k sp cur else fieldsLoop s k sp (b :: cur)
  | b :: s, 0, _, cur =>
    if isSpace (runeValue (b :: s)) then
      if cur.isEmpty then fieldsLoop s (runeWidth (b :: s) - 1) true []
      else cur.reverse :: fieldsLoop s (runeWidth (b :: s) - 1) true []
    else fieldsLoop s (runeWidth (b :: s) - 1) false (b :: cur)

/-- `strings.Fields(s)`: the maximal runs of runes of `s` that are not white space. -/
def Fields (s : Str) : List Str := fieldsLoop s 0 false []

/-- `strings.TrimLeft(s, cutset)`, for a cutset of ASCII bytes. -/
def TrimLeft (s cutset : Str) : Str := s.dropWhile (fun c => cutset.contains c)

/-- `strings.Trim(s, cutset)`, for a cutset of ASCII bytes: drop the leading and
the trailing bytes that belong to `cutset`. -/
def Trim (s cutset : Str) : Str :=
  ((TrimLeft s cutset).reverse.dropWhile (fun c => cutset.contains c)).reverse

/-- The regexp class `\d`: an ASCII digit. -/
def isDigit (c : Byte) : Bool := 48 ≤ c.val && c.val ≤ 57

/-- The regexp class `\s`: tab, line feed, form feed, carriage return, space. -/
def isReSpace (c : Byte) : Bool :=
  c.val == 9 || c.val == 10 || c.val == 12 || c.val == 13 || c.val == 32

/-- The regexp class `[[:alnum:]]`: an ASCII letter or digit. -/
def isAlnum (c : Byte) : Bool :=
  isDigit c || (65 ≤ c.val && c.val ≤ 90) || (97 ≤ c.val && c.val ≤ 122)

/-- The byte of the decimal digit `n`. -/
def digitByte (n : Nat) : Byte := byte (48 + n)

/-- `strconv.FormatInt(v, 10)` (also the rendering of an `int` by `%v` and `%d`). -/
def FormatInt (v : Int) : Str :=
  if v < 0 then byte 45 :: (Nat.toDigits 10 v.natAbs).map (fun c => byte c.toNat)
  else (Nat.toDigits 10 v.natAbs).map (fun c => byte c.toNat)

/-- The result of converting to `int64`: the value modulo `2^64`, in the signed range. -/
def int64 (v : Int) : Int := (v + 2 ^ 63) % 2 ^ 64 - 2 ^ 63

/-! ## The package -/

/-- `const maxDieRolls = 5`. -/
def maxDieRolls : Nat := 5

/-- `const DefaultWordCount = 6`. -/
def DefaultWordCount : Int := 6

/-- `const DefaultSeparator = " "`. -/
def DefaultSeparator : Str := (bytesOf " ")

/-- `const charCount = 17`. -/
def charCount : Int := 17

/-- `meetsCharReq`: `strings.Count(pass, "")-1 > charCount`. -/
def meetsCharReq (pass : Str) : Bool := decide (Count pass [] - 1 > charCount)

/-- The entropy source `crypto/rand.Reader` as seen through `rand.Int`: the
outcome of the draw number `pos` for a bound `n` is an error text or a value
below `n`. -/
abbrev Entropy := Nat → (n : Nat) → Except Str (Fin n)

/-- `rand.Int(rand.Reader, max)`: panics when `max <= 0`, otherwise takes the next
draw of the source: an error, or a value in `[0, max)`. -/
def crInt (rng : Entropy) (pos : Nat) (max : Int) : Outcome ((Int × GoError) × Nat) :=
  if max ≤ 0 then .panic
  else match rng pos max.toNat with
    | .error err => .ret ((0, some err), pos + 1)
    | .ok r => .ret (((r.val : Int), none), pos + 1)

/-- `type die struct`. -/
structure die where
  maxRoll : Int
  minRoll : Int
  deriving DecidableEq, Repr

/-- `(d *die) rollDie`: draw until the value is positive.  `fuel` bounds the
number of draws; when it is used up the roll is still going on (`diverge`). -/
def rollDie (rng : Entropy) (d : die) : Nat → Nat → Outcome ((Str × GoError) × Nat)
  | 0, _ => .diverge
  | fuel + 1, pos =>
    match crInt rng pos (int64 (d.maxRoll + 1)) with
    | .panic => .panic
    | .diverge => .diverge
    | .ret ((_, some err), pos1) =>
      .ret (([], some ((bytesOf "cannot source enough entropy: ") ++ err)), pos1)
    | .ret ((r, none), pos1) =>
      let rollVal := int64 r
      if rollVal > 0 then .ret ((FormatInt rollVal, none), pos1)
      else rollDie rng d fuel pos1

/-- The loop of `randID`: `n` iterations are left, `i` is the loop counter. -/
def randIDLoop (rng : Entropy) (fuel : Nat) :
    Nat → Int → List Str → Nat → Outcome ((Str × GoError) × Nat)
  | 0, _, digits, pos => .ret ((Join digits [], none), pos)
  | n + 1, i, digits, pos =>
    match rollDie rng (die.mk 6 1) fuel pos with
    | .panic => .panic
    | .diverge => .diverge
    | .ret ((_, some err), pos1) =>
      .ret (([], some ((bytesOf "cannot generate digit number ") ++ FormatInt i ++ (bytesOf " of ") ++
        FormatInt maxDieRolls ++ (bytesOf " digit word ID: ") ++ err)), pos1)
    | .ret ((digit, none), pos1) => randIDLoop rng fuel n (i + 1) (digits ++ [digit]) pos1

/-- `randID`. -/
def randID (rng : Entropy) (fuel pos : Nat) : Outcome ((Str × GoError) × Nat) :=
  randIDLoop rng fuel maxDieRolls 0 [] pos

/-- `idWordLine.MatchString(l)` for `idWordLine = \d\s\.*`: the unanchored
pattern matches when a digit is directly followed by a white-space character
(the trailing `\.*` also matches the empty string). -/
def idWordLineMatch : Str → Bool
  | [] => false
  | [_] => false
  | c :: d :: s => (isDigit c && isReSpace d) || idWordLineMatch (d :: s)

/-- `alum.MatchString(s)` for `alum = [[:alnum:]]`. -/
def alumMatch (s : Str) : Bool := s.any isAlnum

/-- The loop of `find` over the lines of the word list; indexing the fields of a
line with `[1]` panics when the line has fewer than two fields. -/
def findLoop (tofind : Str) : List Str → Outcome Str
  | [] => .ret []
  | l :: ls =>
    if idWordLineMatch l && Contains l tofind then
      match (Fields l)[1]? with
      | some f => .ret (Trim f (bytesOf " "))
      | none => .panic
    else findLoop tofind ls

/-- `find`. -/
def find (tofind wordlist : Str) : Outcome Str :=
  findLoop tofind (Split wordlist (bytesOf "\n"))

/-- `isInWordlist`. -/
def isInWordlist (word wordlist : Str) : Outcome Bool :=
  match find word wordlist with
  | .ret w => if w = [] then .ret false else .ret true
  | .panic => .panic
  | .diverge => .diverge

/-- `randWord`. -/
def randWord (rng : Entropy) (fuel : Nat) (wordlist : Str) (pos : Nat) :
    Outcome ((Str × GoError) × Nat) :=
  match randID rng fuel pos with
  | .panic => .panic
  | .diverge => .diverge
  | .ret ((_, some err), pos1) =>
    .ret (([], some ((bytesOf "cannot generate random ID: ") ++ err)), pos1)
  | .ret ((wordID, none), pos1) =>
    match find wordID wordlist with
    | .panic => .panic
    | .diverge => .diverge
    | .ret word =>
      if word ≠ [] then .ret ((word, none), pos1)
      else .ret (([], some ((bytesOf "cannot find word with the ID: ") ++ wordID)), pos1)

/-- `checkParams`: the cases of the `switch` are tried in order. -/
def checkParams (path separator wordlist : Str) (wc : Int) : Outcome GoError :=
  if separator = [] then .ret (some (bytesOf "separator cannot be an empty string"))
  else match isInWordlist separator wordlist with
    | .panic => .panic
    | .diverge => .diverge
    | .ret true =>
      .ret (some ((bytesOf "separator ") ++ separator ++
        (bytesOf " cannot be a word in the wordlist ") ++ path))
    | .ret false =>
      if alumMatch separator then
        .ret (some ((bytesOf "separator ") ++ separator ++
          (bytesOf " cannot contain alphanumeric characters")))
      else if wc < DefaultWordCount then
        .ret (some ((bytesOf "word count requested is ") ++ FormatInt wc ++ (bytesOf "; must be over ") ++
          FormatInt DefaultWordCount ++ (bytesOf " words")))
      else .ret none

/-- The `for` loop of `PassphraseWith`: `n` words are still to be chosen; the
result is the error of the failing `randWord`, or the words. -/
def wordsLoop (rng : Entropy) (fuel : Nat) (wordlist : Str) :
    Nat → List Str → Nat → Outcome ((List Str × GoError) × Nat)
  | 0, words, pos => .ret ((words, none), pos)
  | n + 1, words, pos =>
    match randWord rng fuel wordlist pos with
    | .panic => .panic
    | .diverge => .diverge
    | .ret ((_, some err), pos1) => .ret ((words, some err), pos1)
    | .ret ((word, none), pos1) => wordsLoop rng fuel wordlist n (words ++ [word]) pos1

/-- The file system: `ioutil.ReadFile(path)` gives an error text or the content. -/
abbrev Files := Str → Except Str Str

mutual
/-- `PassphraseWith`.  `fuel` is the step budget: it bounds the draws of each die
roll and the depth of the calls between `PassphraseWith` and `checkCharReq`;
reading the file and checking the parameters need no budget. -/
def PassphraseWith (fs : Files) (rng : Entropy) :
    Nat → Nat → Str → Str → Int → Outcome ((Str × GoError) × Nat)
  | fuel, pos, path, separator, wordCount =>
    match fs path with
    | .error err =>
      .ret (([], some ((bytesOf "diceware: cannot read wordlist file ") ++ path ++ (bytesOf ": ") ++ err)),
        pos)
    | .ok wordlist =>
      match checkParams path separator wordlist wordCount with
      | .panic => .panic
      | .diverge => .diverge
      | .ret (some err) =>
        .ret (([], some ((bytesOf "diceware: cannot create passphrase: ") ++ err)), pos)
      | .ret none =>
        match wordsLoop rng fuel wordlist wordCount.toNat [] pos with
        | .panic => .panic
        | .diverge => .diverge
        | .ret ((_, some err), pos1) =>
          .ret (([], some ((bytesOf "diceware: cannot choose random word with wordlist ") ++ path ++
            (bytesOf ": ") ++ err)), pos1)
        | .ret ((words, none), pos1) =>
          match fuel with
          | 0 => .diverge
          | fuel1 + 1 => checkCharReq fs rng fuel1 pos1 (Join words separator) path separator wordCount
/-- `checkCharReq`: keep `pass` when it meets the length requirement, otherwise
generate again with `PassphraseWith`. -/
def checkCharReq (fs : Files) (rng : Entropy) :
    Nat → Nat → Str → Str → Str → Int → Outcome ((Str × GoError) × Nat)
  | fuel, pos, pass, path, separator, wordCount =>
    if !meetsCharReq pass then
      match fuel with
      | 0 => .diverge
      | fuel1 + 1 => PassphraseWith fs rng fuel1 pos path separator wordCount
    else .ret ((pass, none), pos)
end

/-- `Passphrase`: `PassphraseWith` with the default separator and word count. -/
def Passphrase (fs : Files) (rng : Entropy) (fuel pos : Nat) (path : Str) :
    Outcome ((Str × GoError) × Nat) :=
  PassphraseWith fs rng fuel pos path DefaultSeparator DefaultWordCount

/-! ## Concrete inputs and notions of the statements -/

/-- An entropy source that never fails: draw number `pos` is `f pos`, reduced
into the requested range. -/
def drawsOf (f : Nat → Nat) : Entropy :=
  fun pos n => if h : 0 < n then .ok ⟨f pos % n, Nat.mod_lt _ h⟩ else .error []

/-- A file system whose only readable file is `wl`, with the given content. -/
def oneFile (content : Str) : Files :=
  fun p => if p = (bytesOf "wl") then .ok content else .error (bytesOf "no such file or directory")

/-- The words of a word list in the sense of the specification's data model
(lines of the form identifier, white space, word; other lines are ignored): the
second field of every line that has the entry shape. -/
def specWords (wordlist : Str) : List Str :=
  (Split wordlist (bytesOf "\n")).filterMap fun l =>
    if idWordLineMatch l then (Fields l)[1]? else none

/-- The raw value of draw number `i` for the die of `randID` (bound 7); a failed
draw counts as 0. -/
def rawDraw (rng : Entropy) (i : Nat) : Nat :=
  match rng i 7 with
  | .ok v => v.val
  | .error _ => 0

/-- The position of the random source after the non-zero draws at the increasing
positions `js` have been used, starting from `pos`. -/
def endOf (pos : Nat) : List Nat → Nat
  | [] => pos
  | j :: js => endOf (j + 1) js

/-- A digit that a die can show: `1`..`6`. -/
def isDieDigit (c : Byte) : Bool := 49 ≤ c.val && c.val ≤ 54

/-- An entry of a word list in the sense of the specification: an identifier,
the white space behind it, and a word. -/
structure Entry where
  ident : Str
  ws : Str
  word : Str
  deriving DecidableEq, Repr

/-- The line of the word list that holds an entry. -/
def Entry.line (e : Entry) : Str := e.ident ++ e.ws ++ e.word

/-- A well-formed entry in the sense of the specification: an identifier of five
digits `1`..`6`, then white space (not a line break), then a word, that is a
non-empty text without white space (one field for `strings.Fields`). -/
def Entry.wellFormed (e : Entry) : Bool :=
  e.ident.length == 5 && e.ident.all isDieDigit &&
    !e.ws.isEmpty && e.ws.all (fun c => isReSpace c && c != 10) &&
    Fields e.word == [e.word]

/-- The text of the word list with the given entries, one per line; `eol` tells
whether the last line is closed by a line feed. -/
def wordlistOf (es : List Entry) (eol : Bool) : Str :=
  Join (es.map Entry.line) (bytesOf "\n") ++ (if eol then bytesOf "\n" else [])

/-- A separator overlaps itself when a proper non-empty end of it is also a start
of it (as in `--`, `-.-` or `abab`). -/
def overlapsItself (sep : Str) : Bool :=
  (List.range sep.length).any fun k => decide (0 < k) && HasPrefix sep (sep.drop k)

/-- The loop of `utf8.ValidString`: `k` bytes of the current rune are still to be
passed. -/
def validLoop : Str → Nat → Bool
  | [], k => k == 0
  | _ :: s, k + 1 => validLoop s k
  | b :: s, 0 =>
    (decide (b.val < 0x80) || decide (2 ≤ runeWidth (b :: s))) &&
      validLoop s (runeWidth (b :: s) - 1)

/-- `utf8.ValidString(s)`: `s` consists of valid UTF-8 sequences only. -/
def ValidString (s : Str) : Bool := validLoop s 0

/-! ## Lemmas on the UTF-8 decoding -/

theorem accepts_high (n : Nat) (b : Byte) (h : accepts n b = true) : isCont b = true := by
  simp only [accepts, Bool.and_eq_true, decide_eq_true_eq] at h
  simp only [isCont, Bool.and_eq_true, decide_eq_true_eq]
  obtain ⟨h1, h2⟩ := h
  constructor
  · split at h1
    · omega
    · split at h1 <;> omega
  · split at h2
    · omega
    · split at h2 <;> omega

theorem leadSize_ascii (n : Nat) (h : n < 0x80) : leadSize n = 1 := by
  simp [leadSize, h]

theorem leadSize_ge_two (n : Nat) (h : 2 ≤ leadSize n) : 0xC2 ≤ n := by
  unfold leadSize at h
  split at h
  · omega
  · split at h
    · omega
    · omega

theorem seqWidth_pos (n : Nat) (t : Str) : 1 ≤ seqWidth n t := by
  unfold seqWidth
  split
  · split <;> omega
  · split <;> omega
  · split <;> omega
  · omega

theorem seqWidth_le (n : Nat) (t : Str) : seqWidth n t ≤ 1 + t.length := by
  unfold seqWidth
  split
  · simp only [List.length_cons]; split <;> omega
  · simp only [List.length_cons]; split <;> omega
  · simp only [List.length_cons]; split <;> omega
  · omega

theorem seqWidth_ascii (n : Nat) (t : Str) (h : n < 0x80) : seqWidth n t = 1 := by
  unfold seqWidth
  rw [leadSize_ascii _ h]

theorem seqValue_ascii (n : Nat) (t : Str) (h : n < 0x80) : seqValue n t = n := by
  unfold seqValue
  rw [seqWidth_ascii n t h]
  simp [h]

theorem runeWidth_pos (b : Byte) (s : Str) : 1 ≤ runeWidth (b :: s) := seqWidth_pos _ _

theorem runeWidth_le (b : Byte) (s : Str) : runeWidth (b :: s) ≤ 1 + s.length := seqWidth_le _ _

theorem runeWidth_ascii (b : Byte) (s : Str) (h : b.val < 0x80) : runeWidth (b :: s) = 1 :=
  seqWidth_ascii _ _ h

theorem runeValue_ascii (b : Byte) (s : Str) (h : b.val < 0x80) :
    runeValue (b :: s) = b.val := seqValue_ascii _ _ h

/-- A sequence of more than one byte starts with a byte from `0xC2` on. -/
theorem seqWidth_lead (n : Nat) (t : Str) (h : 2 ≤ seqWidth n t) : 0xC2 ≤ n := by
  unfold seqWidth at h
  split at h
  · rename_i h2; exact leadSize_ge_two n (by omega)
  · rename_i h2; exact leadSize_ge_two n (by omega)
  · rename_i h2; exact leadSize_ge_two n (by omega)
  · omega

/-- The bytes of a sequence behind its first byte are continuation bytes. -/
theorem seqWidth_tail (n : Nat) (t : Str) :
    ∀ c ∈ t.take (seqWidth n t - 1), isCont c = true := by
  unfold seqWidth
  split
  · split
    · rename_i h
      simpa using accepts_high _ _ h
    · simp
  · split
    · rename_i h
      simp only [Bool.and_eq_true] at h
      simpa using ⟨accepts_high _ _ h.1, h.2⟩
    · simp
  · split
    · rename_i h
      simp only [Bool.and_eq_true] at h
      simpa using ⟨accepts_high _ _ h.1.1, h.1.2, h.2⟩
    · simp
  · simp

theorem leadSize_le (n : Nat) : leadSize n ≤ 4 := by
  unfold leadSize
  repeat' split
  all_goals omega

theorem accepts_of_not_cont (n : Nat) (b : Byte) (h : isCont b = false) : accepts n b = false := by
  cases ha : accepts n b with
  | false => rfl
  | true => rw [accepts_high n b ha] at h; exact absurd h (by simp)

/-- A valid sequence of more than one byte is decoded in the same way whatever
follows it. -/
theorem seqWidth_append (n : Nat) (t r : Str) (h : 2 ≤ seqWidth n t) :
    seqWidth n (t ++ r) = seqWidth n t := by
  have hk := leadSize_le n
  unfold seqWidth at h ⊢
  generalize leadSize n = k at *
  interval_cases k <;> rcases t with _ | ⟨b1, _ | ⟨b2, _ | ⟨b3, t⟩⟩⟩ <;> simp_all

/-- The decoding of the first rune of `t` does not change when a text is appended
that does not start with a continuation byte. -/
theorem seqWidth_append_start (n : Nat) (t r : Str)
    (hr : ∀ c, r.head? = some c → isCont c = false) :
    seqWidth n (t ++ r) = seqWidth n t := by
  have hk := leadSize_le n
  rcases r with _ | ⟨c, r⟩
  · simp
  · have hc : isCont c = false := hr c rfl
    have ha : accepts n c = false := accepts_of_not_cont n c hc
    unfold seqWidth
    generalize leadSize n = k at *
    interval_cases k <;> rcases t with _ | ⟨b1, _ | ⟨b2, _ | ⟨b3, t⟩⟩⟩ <;>
      rcases r with _ | ⟨c2, _ | ⟨c3, r⟩⟩ <;> simp_all

/-! ### Counting runes -/

theorem runeCount_pos (s : Str) (h : s ≠ []) : 1 ≤ runeCount s := by
  cases s with
  | nil => exact absurd rfl h
  | cons b s => simp only [runeCount, runeCountLoop]; omega

/-- The runes of a text are counted in the same way when a text follows that
does not start with a continuation byte. -/
theorem runeCountLoop_append_start (r : Str) (hr : ∀ c, r.head? = some c → isCont c = false) :
    ∀ (w : Str) (k : Nat), k ≤ w.length →
    runeCountLoop (w ++ r) k = runeCountLoop w k + runeCountLoop r 0 := by
  intro w
  induction w with
  | nil =>
    intro k hk
    have : k = 0 := by simpa using hk
    subst this
    simp [runeCountLoop]
  | cons b s ih =>
    intro k hk
    cases k with
    | zero =>
      have hw : runeWidth (b :: (s ++ r)) = runeWidth (b :: s) :=
        seqWidth_append_start b.val s r hr
      simp only [List.cons_append, runeCountLoop, List.append_eq, hw]
      rw [ih _ (by have := runeWidth_le b s; omega)]
      omega
    | succ k =>
      simp only [List.cons_append, runeCountLoop, List.append_eq]
      exact ih k (by simpa using hk)

/-- The runes of a valid text are counted in the same way whatever follows it. -/
theorem runeCountLoop_append_valid (r : Str) : ∀ (w : Str) (k : Nat), validLoop w k = true →
    runeCountLoop (w ++ r) k = runeCountLoop w k + runeCountLoop r 0 := by
  intro w
  induction w with
  | nil =>
    intro k hk
    have : k = 0 := by simpa [validLoop] using hk
    subst this
    simp [runeCountLoop]
  | cons b s ih =>
    intro k hk
    cases k with
    | zero =>
      simp only [validLoop, Bool.and_eq_true, Bool.or_eq_true, decide_eq_true_eq] at hk
      have hw : runeWidth (b :: (s ++ r)) = runeWidth (b :: s) := by
        rcases hk.1 with h1 | h1
        · rw [runeWidth_ascii b _ h1, runeWidth_ascii b _ h1]
        · exact seqWidth_append b.val s r h1
      simp only [List.cons_append, runeCountLoop, List.append_eq, hw]
      rw [ih _ hk.2]
      omega
    | succ k =>
      simp only [validLoop] at hk
      simp only [List.cons_append, runeCountLoop, List.append_eq]
      exact ih k hk

theorem ValidString_head (b : Byte) (s : Str) (h : ValidString (b :: s) = true) :
    isCont b = false := by
  simp only [ValidString, validLoop, Bool.and_eq_true, Bool.or_eq_true, decide_eq_true_eq] at h
  have hb : b.val < 0x80 ∨ 0xC2 ≤ b.val := by
    rcases h.1 with h1 | h1
    · exact Or.inl h1
    · exact Or.inr (seqWidth_lead b.val s h1)
  simp only [isCont, Bool.and_eq_false_iff, decide_eq_false_iff_not]
  omega

theorem runeCount_append_valid (sep r : Str) (h : ValidString sep = true) :
    runeCount (sep ++ r) = runeCount sep + runeCount r :=
  runeCountLoop_append_valid r sep 0 h

theorem runeCount_append_start (w r : Str) (hr : ∀ c, r.head? = some c → isCont c = false) :
    runeCount (w ++ r) = runeCount w + runeCount r :=
  runeCountLoop_append_start r hr w 0 (Nat.zero_le _)

/-- With a non-empty separator of valid UTF-8, a join of non-empty words has at
least one character for every word and one for every separator. -/
theorem runeCount_Join (sep : Str) (hne : sep ≠ []) (hv : ValidString sep = true) :
    ∀ (words : List Str), (∀ w ∈ words, w ≠ []) →
    words.length + (words.length - 1) ≤ runeCount (Join words sep) := by
  intro words
  induction words with
  | nil => intro _; simp
  | cons a t ih =>
    intro hw
    have ha : 1 ≤ runeCount a := runeCount_pos a (hw a (List.mem_cons_self _ _))
    cases t with
    | nil => simp only [Join, List.length_singleton]; omega
    | cons b rest =>
      have h2 := ih (fun w hm => hw w (List.mem_cons_of_mem _ hm))
      have hs : 1 ≤ runeCount sep := runeCount_pos sep hne
      obtain ⟨c0, s0, hc0⟩ := List.exists_cons_of_ne_nil hne
      have hstart : ∀ c, (sep ++ Join (b :: rest) sep).head? = some c → isCont c = false := by
        intro c hc
        rw [hc0] at hc hv
        simp only [List.cons_append, List.head?_cons, Option.some.injEq] at hc
        rw [← hc]
        exact ValidString_head c0 s0 hv
      have hj : Join (a :: b :: rest) sep = a ++ (sep ++ Join (b :: rest) sep) := by
        simp [Join]
      rw [hj, runeCount_append_start a _ hstart, runeCount_append_valid sep _ hv]
      simp only [List.length_cons] at h2 ⊢
      omega

/-! ## Lemmas on the library functions -/

theorem Count_nil (s : Str) : Count s [] = (runeCount s : Int) + 1 := by
  simp [Count]

theorem meetsCharReq_eq_true (pass : Str) : meetsCharReq pass = true ↔ 17 < runeCount pass := by
  simp only [meetsCharReq, Count_nil, charCount, decide_eq_true_eq]
  omega

theorem meetsCharReq_eq_false (pass : Str) : meetsCharReq pass = false ↔ runeCount pass ≤ 17 := by
  rw [← Bool.not_eq_true, meetsCharReq_eq_true]
  omega

/-! ### Fields -/

theorem isCont_high (c : Byte) (h : isCont c = true) : 0x80 ≤ c.val := by
  simp only [isCont, Bool.and_eq_true, decide_eq_true_eq] at h
  exact h.1

theorem isAsciiSpace_high (c : Byte) (h : 0x80 ≤ c.val) : isAsciiSpace c = false := by
  simp only [isAsciiSpace, Bool.or_eq_false_iff, Bool.and_eq_false_iff, decide_eq_false_iff_not,
    beq_eq_false_iff_ne, ne_eq]
  omega

/-- An ASCII white-space byte is a white-space rune, whatever follows it. -/
theorem isAsciiSpace_rune (c : Byte) (s : Str) (h : isAsciiSpace c = true) :
    c.val < 0x80 ∧ isSpace (runeValue (c :: s)) = true := by
  simp only [isAsciiSpace, Bool.or_eq_true, Bool.and_eq_true, decide_eq_true_eq, beq_iff_eq] at h
  have hlt : c.val < 0x80 := by omega
  refine ⟨hlt, ?_⟩
  rw [runeValue_ascii c s hlt]
  simp only [isSpace, Bool.or_eq_true, Bool.and_eq_true, decide_eq_true_eq, beq_iff_eq]
  omega

/-- The bytes behind the first byte of the rune at the start of `c :: s` lie in
`s` and are not ASCII. -/
theorem runeWidth_rest (c : Byte) (s : Str) :
    runeWidth (c :: s) - 1 ≤ s.length ∧
    ∀ d ∈ s.take (runeWidth (c :: s) - 1), 0x80 ≤ d.val :=
  ⟨by have := runeWidth_le c s; omega, fun d hd => isCont_high d (seqWidth_tail c.val s d hd)⟩

theorem fieldsLoop_spec (s : Str) : ∀ (k : Nat) (sp : Bool) (cur : Str), k ≤ s.length →
    (∀ c ∈ s.take k, 0x80 ≤ c.val) → (∀ c ∈ cur, isAsciiSpace c = false) →
    ∀ f ∈ fieldsLoop s k sp cur,
      f ≠ [] ∧ ∀ c ∈ f, isAsciiSpace c = false ∧ (c ∈ s ∨ c ∈ cur) := by
  induction s with
  | nil =>
    intro k sp cur _ _ hcur f hf
    simp only [fieldsLoop] at hf
    split at hf
    · simp at hf
    · rename_i hne
      simp only [List.mem_singleton] at hf
      subst hf
      refine ⟨by simpa using hne, fun c hc => ?_⟩
      have hc1 : c ∈ cur := by simpa using hc
      exact ⟨hcur c hc1, Or.inr hc1⟩
  | cons a s ih =>
    intro k sp cur hk htake hcur f hf
    have lift : ∀ (cur1 : Str), (∀ c ∈ cur1, c = a ∨ c ∈ cur) → ∀ g,
        (g ≠ [] ∧ ∀ c ∈ g, isAsciiSpace c = false ∧ (c ∈ s ∨ c ∈ cur1)) →
        g ≠ [] ∧ ∀ c ∈ g, isAsciiSpace c = false ∧ (c ∈ a :: s ∨ c ∈ cur) := by
      intro cur1 hsub g hg
      refine ⟨hg.1, fun c hc => ⟨(hg.2 c hc).1, ?_⟩⟩
      rcases (hg.2 c hc).2 with h | h
      · exact Or.inl (List.mem_cons_of_mem _ h)
      · rcases hsub c h with e | e
        · exact Or.inl (e ▸ List.mem_cons_self _ _)
        · exact Or.inr e
    have emit : cur ≠ [] →
        cur.reverse ≠ [] ∧ ∀ c ∈ cur.reverse, isAsciiSpace c = false ∧ (c ∈ a :: s ∨ c ∈ cur) := by
      intro hne
      refine ⟨by simpa using hne, fun c hc => ?_⟩
      have hc1 : c ∈ cur := by simpa using hc
      exact ⟨hcur c hc1, Or.inr hc1⟩
    cases k with
    | succ k =>
      have hk1 : k ≤ s.length := by simpa using hk
      have htake1 : ∀ c ∈ s.take k, 0x80 ≤ c.val := fun c hc =>
        htake c (by simp only [List.take_succ_cons]; exact List.mem_cons_of_mem _ hc)
      have ha : 0x80 ≤ a.val := htake a (by simp [List.take_succ_cons])
      simp only [fieldsLoop] at hf
      split at hf
      · exact lift cur (fun c hc => Or.inr hc) f (ih k sp cur hk1 htake1 hcur f hf)
      · refine lift (a :: cur) (fun c hc => by simpa using hc) f
          (ih k sp (a :: cur) hk1 htake1 (fun c hc => ?_) f hf)
        rcases List.mem_cons.1 hc with e | e
        · rw [e]; exact isAsciiSpace_high a ha
        · exact hcur c e
    | zero =>
      obtain ⟨hr1, hr2⟩ := runeWidth_rest a s
      simp only [fieldsLoop] at hf
      split at hf
      · split at hf
        · exact lift [] (fun c hc => by simp at hc) f (ih _ true [] hr1 hr2 (by simp) f hf)
        · rename_i hne
          rcases List.mem_cons.1 hf with e | e
          · rw [e]; exact emit (by simpa using hne)
          · exact lift [] (fun c hc => by simp at hc) f (ih _ true [] hr1 hr2 (by simp) f e)
      · rename_i hsp
        refine lift (a :: cur) (fun c hc => by simpa using hc) f
          (ih _ false (a :: cur) hr1 hr2 (fun c hc => ?_) f hf)
        rcases List.mem_cons.1 hc with e | e
        · rw [e]
          cases has : isAsciiSpace a with
          | false => rfl
          | true => exact absurd (isAsciiSpace_rune a s has).2 hsp
        · exact hcur c e

theorem Fields_spec (s f : Str) (hf : f ∈ Fields s) :
    f ≠ [] ∧ ∀ c ∈ f, isAsciiSpace c = false ∧ c ∈ s := by
  obtain ⟨h1, h2⟩ := fieldsLoop_spec s 0 false [] (Nat.zero_le _) (by simp) (by simp) f hf
  refine ⟨h1, fun c hc => ?_⟩
  obtain ⟨h3, h4⟩ := h2 c hc
  refine ⟨h3, ?_⟩
  rcases h4 with h4 | h4
  · exact h4
  · simp at h4

theorem Trim_field (f : Str) (hne : f ≠ []) (hsp : ∀ c ∈ f, isAsciiSpace c = false) :
    Trim f (bytesOf " ") = f := by
  have hp : ∀ c ∈ f, c ≠ 32 := by
    intro c hc h2
    have h := hsp c hc
    rw [h2] at h
    revert h
    decide
  have hb : bytesOf " " = [32] := by decide
  rw [hb]
  have h1 : TrimLeft f [32] = f := by
    unfold TrimLeft
    cases f with
    | nil => rfl
    | cons a t => rw [List.dropWhile_cons_of_neg]; simp [hp a (List.mem_cons_self _ _)]
  unfold Trim
  rw [h1]
  have h2 : (f.reverse).dropWhile (fun c => [(32 : Byte)].contains c) = f.reverse := by
    cases hr : f.reverse with
    | nil => rfl
    | cons a t =>
      rw [List.dropWhile_cons_of_neg]
      have : a ∈ f := by
        have : a ∈ f.reverse := by rw [hr]; exact List.mem_cons_self _ _
        simpa using this
      simp [hp a this]
  rw [h2, List.reverse_reverse]

theorem HasPrefix_single (s : Str) (c : Byte) :
    HasPrefix s [c] = true ↔ ∃ t, s = c :: t := by
  cases s with
  | nil => simp [HasPrefix]
  | cons a t =>
    simp [HasPrefix]

theorem Contains_single (s : Str) (c : Byte) : Contains s [c] = true ↔ c ∈ s := by
  induction s with
  | nil => simp [Contains, HasPrefix]
  | cons a t ih =>
    simp only [Contains, Bool.or_eq_true, ih, HasPrefix_single, List.cons.injEq, exists_eq_right',
      List.mem_cons]
    constructor
    · rintro (h | h)
      · exact Or.inl h.symm
      · exact Or.inr h
    · rintro (h | h)
      · exact Or.inl h.symm
      · exact Or.inr h

theorem cut_single_none (c : Byte) (w : Str) (h : c ∉ w) : cut [c] w = none := by
  induction w with
  | nil => simp [cut, HasPrefix]
  | cons a t ih =>
    have h1 : a ≠ c := fun e => h (e ▸ List.mem_cons_self _ _)
    have h2 : c ∉ t := fun e => h (List.mem_cons_of_mem _ e)
    have h3 : HasPrefix (a :: t) [c] = false := by
      rw [← Bool.not_eq_true, HasPrefix_single]
      rintro ⟨t1, ht1⟩
      exact h1 (List.cons.inj ht1).1
    simp [cut, h3, ih h2]

theorem cut_single_append (c : Byte) (w rest : Str) (h : c ∉ w) :
    cut [c] (w ++ c :: rest) = some (w, rest) := by
  induction w with
  | nil =>
    have h3 : HasPrefix (c :: rest) [c] = true := (HasPrefix_single _ _).2 ⟨rest, rfl⟩
    simp [cut, h3]
  | cons a t ih =>
    have h1 : a ≠ c := fun e => h (e ▸ List.mem_cons_self _ _)
    have h2 : c ∉ t := fun e => h (List.mem_cons_of_mem _ e)
    have h3 : HasPrefix (a :: (t ++ c :: rest)) [c] = false := by
      rw [← Bool.not_eq_true, HasPrefix_single]
      rintro ⟨t1, ht1⟩
      exact h1 (List.cons.inj ht1).1
    simp [cut, h3, ih h2]

theorem splitLoop_Join (c : Byte) : ∀ (words : List Str), words ≠ [] → (∀ w ∈ words, c ∉ w) →
    ∀ n, words.length ≤ n + 1 → splitLoop [c] n (Join words [c]) = words := by
  intro words
  induction words with
  | nil => intro h; exact absurd rfl h
  | cons a t ih =>
    intro _ hc n hn
    cases t with
    | nil =>
      have ha : c ∉ a := hc a (List.mem_cons_self _ _)
      cases n with
      | zero => simp [Join, splitLoop]
      | succ m => simp [Join, splitLoop, cut_single_none c a ha]
    | cons b rest =>
      have ha : c ∉ a := hc a (List.mem_cons_self _ _)
      cases n with
      | zero => simp at hn
      | succ m =>
        have hrec := ih (by simp) (fun w hw => hc w (List.mem_cons_of_mem _ hw)) m
          (by simpa using hn)
        simp only [Join, splitLoop, List.append_assoc, List.singleton_append,
          cut_single_append c a _ ha, hrec]

theorem Join_length (sep : Str) (hsep : sep ≠ []) : ∀ (words : List Str),
    words.length ≤ (Join words sep).length + 1 := by
  intro words
  induction words with
  | nil => simp
  | cons a t ih =>
    cases t with
    | nil => simp
    | cons b rest =>
      have h1 : 0 < sep.length := List.length_pos.2 hsep
      simp only [Join, List.length_append, List.length_cons] at ih ⊢
      omega

theorem Split_Join_single (c : Byte) (words : List Str) (hne : words ≠ [])
    (hc : ∀ w ∈ words, c ∉ w) : Split (Join words [c]) [c] = words := by
  have h := Join_length [c] (by simp) words
  simp only [Split, List.cons_ne_nil, if_false]
  exact splitLoop_Join c words hne hc _ h

/-! ### find -/

/-- What `findLoop` can return: the empty string when no line qualifies, and
otherwise a non-empty word whose characters come from a qualifying line. -/
theorem findLoop_ret (tofind : Str) : ∀ (ls : List Str) (w : Str), findLoop tofind ls = .ret w →
    (w = [] ∧ ∀ l ∈ ls, (idWordLineMatch l && Contains l tofind) = false) ∨
    (w ≠ [] ∧ ∃ l ∈ ls, idWordLineMatch l = true ∧ Contains l tofind = true ∧
      ∀ c ∈ w, c ∈ l ∧ isAsciiSpace c = false) := by
  intro ls
  induction ls with
  | nil =>
    intro w h
    simp only [findLoop, Outcome.ret.injEq] at h
    exact Or.inl ⟨h.symm, by simp⟩
  | cons l ls ih =>
    intro w h
    simp only [findLoop] at h
    split at h
    · rename_i hq
      split at h
      · rename_i f hf
        have hmem : f ∈ Fields l := List.getElem?_mem hf
        obtain ⟨h1, h2⟩ := Fields_spec l f hmem
        have ht : Trim f (bytesOf " ") = f := Trim_field f h1 (fun c hc => (h2 c hc).1)
        rw [ht] at h
        simp only [Outcome.ret.injEq] at h
        subst h
        simp only [Bool.and_eq_true] at hq
        exact Or.inr ⟨h1, l, List.mem_cons_self _ _, hq.1, hq.2,
          fun c hc => ⟨(h2 c hc).2, (h2 c hc).1⟩⟩
      · exact absurd h (by simp)
    · rename_i hq
      rcases ih w h with ⟨h1, h2⟩ | ⟨h1, l1, h2, h3⟩
      · refine Or.inl ⟨h1, fun l0 hl0 => ?_⟩
        rcases List.mem_cons.1 hl0 with e | e
        · subst e; simpa using hq
        · exact h2 l0 e
      · exact Or.inr ⟨h1, l1, List.mem_cons_of_mem _ h2, h3⟩

/-- A qualifying line makes `findLoop` return a non-empty word or panic. -/
theorem findLoop_of_mem (tofind : Str) : ∀ (ls : List Str) (l : Str), l ∈ ls →
    idWordLineMatch l = true → Contains l tofind = true →
    findLoop tofind ls = .panic ∨ ∃ w, w ≠ [] ∧ findLoop tofind ls = .ret w := by
  intro ls l hl h1 h2
  cases h : findLoop tofind ls with
  | panic => exact Or.inl rfl
  | diverge =>
    exfalso
    clear hl h1 h2
    induction ls with
    | nil => simp [findLoop] at h
    | cons a t ih =>
      simp only [findLoop] at h
      split at h
      · split at h <;> simp at h
      · exact ih h
  | ret w =>
    rcases findLoop_ret tofind ls w h with ⟨_, h4⟩ | ⟨h3, _⟩
    · have := h4 l hl
      simp [h1, h2] at this
    · exact Or.inr ⟨w, h3, rfl⟩

theorem find_ne_diverge (tofind wordlist : Str) : find tofind wordlist ≠ .diverge := by
  unfold find
  generalize Split wordlist (bytesOf "\n") = ls
  induction ls with
  | nil => simp [findLoop]
  | cons a t ih =>
    simp only [findLoop]
    split
    · split <;> simp
    · exact ih

theorem isInWordlist_true_iff (sep wordlist : Str) :
    isInWordlist sep wordlist = .ret true ↔ ∃ w, w ≠ [] ∧ find sep wordlist = .ret w := by
  unfold isInWordlist
  cases h : find sep wordlist with
  | panic => simp
  | diverge => simp
  | ret w =>
    by_cases hw : w = []
    · simp [hw]
    · simp [hw]

theorem isInWordlist_false_iff (sep wordlist : Str) :
    isInWordlist sep wordlist = .ret false ↔ find sep wordlist = .ret [] := by
  unfold isInWordlist
  cases h : find sep wordlist with
  | panic => simp
  | diverge => simp
  | ret w =>
    by_cases hw : w = []
    · simp [hw]
    · simp [hw]

/-! ### randWord, the word loop -/

theorem randWord_ok (rng : Entropy) (fuel : Nat) (wordlist : Str) (pos : Nat) (word : Str)
    (pos1 : Nat) (h : randWord rng fuel wordlist pos = .ret ((word, none), pos1)) :
    word ≠ [] ∧ ∃ wordID, find wordID wordlist = .ret word := by
  unfold randWord at h
  split at h
  · simp at h
  · simp at h
  · simp at h
  · rename_i wordID p1 hid
    split at h
    · simp at h
    · simp at h
    · rename_i w hw
      split at h
      · rename_i hne
        simp only [Outcome.ret.injEq, Prod.mk.injEq, and_true] at h
        obtain ⟨h1, _⟩ := h
        subst h1
        exact ⟨hne, wordID, hw⟩
      · simp at h

theorem wordsLoop_ok (rng : Entropy) (fuel : Nat) (wordlist : Str) : ∀ (n : Nat) (acc : List Str)
    (pos : Nat) (words : List Str) (pos1 : Nat),
    wordsLoop rng fuel wordlist n acc pos = .ret ((words, none), pos1) →
    ∃ new, words = acc ++ new ∧ new.length = n ∧
      ∀ w ∈ new, w ≠ [] ∧ ∃ wordID, find wordID wordlist = .ret w := by
  intro n
  induction n with
  | zero =>
    intro acc pos words pos1 h
    simp only [wordsLoop, Outcome.ret.injEq, Prod.mk.injEq, and_true] at h
    exact ⟨[], by simp [h.1], rfl, by simp⟩
  | succ n ih =>
    intro acc pos words pos1 h
    simp only [wordsLoop] at h
    split at h
    · simp at h
    · simp at h
    · simp at h
    · rename_i word p1 hw
      obtain ⟨new, h1, h2, h3⟩ := ih _ _ _ _ h
      refine ⟨word :: new, by simp [h1], by simp [h2], fun w hw1 => ?_⟩
      rcases List.mem_cons.1 hw1 with e | e
      · subst e; exact randWord_ok rng fuel wordlist pos _ p1 hw
      · exact h3 w e

/-! ### PassphraseWith -/

/-- What a successful `PassphraseWith` has done: the file was read, the
parameters were accepted, and the passphrase is the join of `wordCount` words
found in the word list that meets the length requirement. -/
theorem PassphraseWith_ok (fs : Files) (rng : Entropy) (path separator : Str) (wordCount : Int) :
    ∀ (fuel pos : Nat) (pass : Str) (pos1 : Nat),
    PassphraseWith fs rng fuel pos path separator wordCount = .ret ((pass, none), pos1) →
    ∃ wordlist words, fs path = .ok wordlist ∧
      checkParams path separator wordlist wordCount = .ret none ∧
      words.length = wordCount.toNat ∧
      (∀ w ∈ words, w ≠ [] ∧ ∃ wordID, find wordID wordlist = .ret w) ∧
      pass = Join words separator ∧ meetsCharReq pass = true := by
  intro fuel
  induction fuel using Nat.strong_induction_on with
  | _ fuel ih =>
    intro pos pass pos1 h
    unfold PassphraseWith at h
    split at h
    · simp at h
    · rename_i wordlist hfs
      split at h
      · simp at h
      · simp at h
      · simp at h
      · rename_i hcp
        split at h
        · simp at h
        · simp at h
        · simp at h
        · rename_i words p1 hwl
          split at h
          · simp at h
          · rename_i fuel1
            unfold checkCharReq at h
            split at h
            · split at h
              · simp at h
              · rename_i fuel2
                exact ih fuel2 (by omega) _ _ _ h
            · rename_i hm
              simp only [Outcome.ret.injEq, Prod.mk.injEq, and_true] at h
              obtain ⟨h1, _⟩ := h
              obtain ⟨new, h2, h3, h4⟩ := wordsLoop_ok _ _ _ _ _ _ _ _ hwl
              simp only [List.nil_append] at h2
              subst h2
              refine ⟨wordlist, words, hfs, hcp, h3, h4, h1.symm, ?_⟩
              rw [← h1]
              simpa using hm

/-! ## Parameter validation -/

theorem checkParams_none_iff (path separator wordlist : Str) (wc : Int) :
    checkParams path separator wordlist wc = .ret none ↔
      separator ≠ [] ∧ isInWordlist separator wordlist = .ret false ∧
        alumMatch separator = false ∧ ¬ wc < DefaultWordCount := by
  unfold checkParams
  by_cases h1 : separator = []
  · simp [h1]
  · simp only [h1, if_false, ne_eq, not_false_eq_true, true_and]
    cases h2 : isInWordlist separator wordlist with
    | panic => simp
    | diverge => simp
    | ret b =>
      cases b with
      | true => simp
      | false =>
        by_cases h3 : alumMatch separator = true
        · simp [h3]
        · by_cases h4 : wc < DefaultWordCount
          · simp [h3, h4]
          · simp [h3, h4]

/-! ### Substrings -/

theorem HasPrefix_iff (s sub : Str) : HasPrefix s sub = true ↔ ∃ b, s = sub ++ b := by
  induction sub generalizing s with
  | nil => simp [HasPrefix]
  | cons d sub ih =>
    cases s with
    | nil => simp [HasPrefix]
    | cons c s =>
      simp only [HasPrefix, Bool.and_eq_true, beq_iff_eq, ih, List.cons_append, List.cons.injEq]
      constructor
      · rintro ⟨h1, b, h2⟩
        exact ⟨b, h1, h2⟩
      · rintro ⟨b, h1, h2⟩
        exact ⟨h1, b, h2⟩

theorem Contains_iff (s sub : Str) : Contains s sub = true ↔ ∃ a b, s = a ++ sub ++ b := by
  induction s with
  | nil =>
    simp only [Contains, HasPrefix_iff]
    constructor
    · rintro ⟨b, h⟩
      exact ⟨[], b, by simpa using h⟩
    · rintro ⟨a, b, h⟩
      have h1 : a ++ sub ++ b = [] := h.symm
      simp only [List.append_eq_nil] at h1
      exact ⟨[], by simp [h1.1.2]⟩
  | cons c s ih =>
    simp only [Contains, Bool.or_eq_true, HasPrefix_iff, ih]
    constructor
    · rintro (⟨b, h⟩ | ⟨a, b, h⟩)
      · exact ⟨[], b, by simpa using h⟩
      · exact ⟨c :: a, b, by simp [h]⟩
    · rintro ⟨a, b, h⟩
      cases a with
      | nil => exact Or.inl ⟨b, by simpa using h⟩
      | cons a0 a =>
        simp only [List.cons_append, List.cons.injEq] at h
        exact Or.inr ⟨a, b, h.2⟩

theorem fieldsLoop_substring (s : Str) : ∀ (k : Nat) (sp : Bool) (cur pre : Str),
    (sp = true → cur = []) → ∀ f ∈ fieldsLoop s k sp cur,
    ∃ a b, pre ++ cur.reverse ++ s = a ++ f ++ b := by
  induction s with
  | nil =>
    intro k sp cur pre _ f hf
    simp only [fieldsLoop] at hf
    split at hf
    · simp at hf
    · simp only [List.mem_singleton] at hf
      subst hf
      exact ⟨pre, [], rfl⟩
  | cons c s ih =>
    intro k sp cur pre hsp f hf
    cases k with
    | succ k =>
      simp only [fieldsLoop] at hf
      split at hf
      · rename_i h1
        have hcur : cur = [] := hsp h1
        subst hcur
        obtain ⟨a, b, h⟩ := ih k sp [] (pre ++ [c]) (fun _ => rfl) f hf
        exact ⟨a, b, by simpa using h⟩
      · rename_i h1
        obtain ⟨a, b, h⟩ := ih k sp (c :: cur) pre (fun h2 => absurd h2 h1) f hf
        exact ⟨a, b, by simpa using h⟩
    | zero =>
      simp only [fieldsLoop] at hf
      split at hf
      · split at hf
        · rename_i hcur
          have hcur1 : cur = [] := by simpa using hcur
          subst hcur1
          obtain ⟨a, b, h⟩ := ih _ true [] (pre ++ [c]) (fun _ => rfl) f hf
          exact ⟨a, b, by simpa using h⟩
        · rcases List.mem_cons.1 hf with e | e
          · subst e
            exact ⟨pre, c :: s, rfl⟩
          · obtain ⟨a, b, h⟩ := ih _ true [] (pre ++ cur.reverse ++ [c]) (fun _ => rfl) f e
            exact ⟨a, b, by simpa using h⟩
      · obtain ⟨a, b, h⟩ := ih _ false (c :: cur) pre (fun h2 => by simp at h2) f hf
        exact ⟨a, b, by simpa using h⟩

theorem Fields_Contains (s f : Str) (hf : f ∈ Fields s) : Contains s f = true := by
  obtain ⟨a, b, h⟩ := fieldsLoop_substring s 0 false [] [] (by simp) f hf
  exact (Contains_iff s f).2 ⟨a, b, by simpa using h⟩

/-! ### Rolling the die -/

theorem crInt_seven (rng : Entropy) (pos : Nat) :
    crInt rng pos (int64 ((die.mk 6 1).maxRoll + 1)) =
      match rng pos 7 with
      | .error err => .ret ((0, some err), pos + 1)
      | .ok r => .ret (((r.val : Int), none), pos + 1) := by
  have h7 : int64 ((die.mk 6 1).maxRoll + 1) = 7 := by decide
  rw [h7]
  unfold crInt
  rw [if_neg (by decide)]
  split
  · rename_i err h
    have h1 : rng pos 7 = .error err := h
    rw [h1]
  · rename_i r h
    have h1 : rng pos 7 = .ok r := h
    rw [h1]

theorem digit_of_draw : ∀ r : Fin 7,
    int64 (r.val : Int) = (r.val : Int) ∧ FormatInt (r.val : Int) = [digitByte r.val] ∧
    (r.val ≠ 0 → digitByte r.val ∈ bytesOf "123456") := by
  decide

/-- One step of `rollDie` for the die of `randID`. -/
theorem rollDie_six_succ (rng : Entropy) (fuel pos : Nat) :
    rollDie rng (die.mk 6 1) (fuel + 1) pos =
      match rng pos 7 with
      | .error err => .ret (([], some ((bytesOf "cannot source enough entropy: ") ++ err)), pos + 1)
      | .ok r =>
        if r.val = 0 then rollDie rng (die.mk 6 1) fuel (pos + 1)
        else .ret (([digitByte r.val], none), pos + 1) := by
  rw [rollDie, crInt_seven]
  cases h : rng pos 7 with
  | error err => rfl
  | ok r =>
    obtain ⟨h1, h2, _⟩ := digit_of_draw r
    simp only [h1, h2]
    by_cases h0 : r.val = 0
    · simp [h0]
    · have : (0 : Int) < (r.val : Int) := by omega
      simp [h0, this]


/-- With draws that never fail and a non-zero draw at some position `j` not
before `pos`, `rollDie` returns the digit of the first non-zero draw `p` and
leaves the source just behind it, as soon as the budget exceeds `p - pos`. -/
theorem rollDie_finds (rng : Entropy) (hok : ∀ i, ∃ v, rng i 7 = .ok v) :
    ∀ (d pos j : Nat), j = pos + d → rng j 7 ≠ .ok 0 →
    ∃ (p : Nat) (v : Fin 7), pos ≤ p ∧ p ≤ j ∧ v.val ≠ 0 ∧ rng p 7 = .ok v ∧
      ∀ fuel, p - pos < fuel →
        rollDie rng (die.mk 6 1) fuel pos = .ret (([digitByte v.val], none), p + 1) := by
  intro d
  induction d with
  | zero =>
    intro pos j hj hnz
    obtain ⟨v, hv⟩ := hok pos
    have hj1 : j = pos := by omega
    subst hj1
    have hv0 : v.val ≠ 0 := by
      intro h0
      apply hnz
      rw [hv]
      exact congrArg _ (Fin.ext h0)
    refine ⟨j, v, le_refl _, le_refl _, hv0, hv, fun fuel hf => ?_⟩
    obtain ⟨f, rfl⟩ : ∃ f, fuel = f + 1 := ⟨fuel - 1, by omega⟩
    rw [rollDie_six_succ, hv]
    simp [hv0]
  | succ d ih =>
    intro pos j hj hnz
    obtain ⟨v, hv⟩ := hok pos
    by_cases hv0 : v.val = 0
    · obtain ⟨p, w, h1, h2, h3, h4, h5⟩ := ih (pos + 1) j (by omega) hnz
      refine ⟨p, w, by omega, h2, h3, h4, fun fuel hf => ?_⟩
      obtain ⟨f, rfl⟩ : ∃ f, fuel = f + 1 := ⟨fuel - 1, by omega⟩
      rw [rollDie_six_succ, hv]
      simp only [hv0, if_true]
      exact h5 f (by omega)
    · refine ⟨pos, v, le_refl _, by omega, hv0, hv, fun fuel hf => ?_⟩
      obtain ⟨f, rfl⟩ : ∃ f, fuel = f + 1 := ⟨fuel - 1, by omega⟩
      rw [rollDie_six_succ, hv]
      simp [hv0]

/-- A source that only delivers zero keeps `rollDie` drawing for ever. -/
theorem rollDie_all_zero (rng : Entropy) (h0 : ∀ i, rng i 7 = .ok 0) :
    ∀ (fuel pos : Nat), rollDie rng (die.mk 6 1) fuel pos = .diverge := by
  intro fuel
  induction fuel with
  | zero => intro pos; rfl
  | succ f ih =>
    intro pos
    rw [rollDie_six_succ, h0 pos]
    simpa using ih (pos + 1)

theorem Join_nil_sep_append (ds : List Str) (d : Str) : Join (ds ++ [d]) [] = Join ds [] ++ d := by
  induction ds with
  | nil => simp [Join]
  | cons a t ih =>
    cases t with
    | nil => simp [Join]
    | cons b rest =>
      have h1 : Join (a :: b :: rest ++ [d]) [] = a ++ Join (b :: rest ++ [d]) [] := by
        simp [Join]
      have h2 : Join (a :: b :: rest) [] = a ++ Join (b :: rest) [] := by
        simp [Join]
      rw [h1, h2, ih, List.append_assoc]

/-- With draws that never fail and `n` non-zero draws at the increasing positions
`js`, the loop of `randID` returns the text read so far extended by `n` digits
between 1 and 6. -/
theorem randIDLoop_finds (rng : Entropy) (hok : ∀ i, ∃ v, rng i 7 = .ok v) :
    ∀ (js : List Nat) (i : Int) (digits : List Str) (pos : Nat),
    js.Pairwise (fun a b => a < b) → (∀ j ∈ js, pos ≤ j ∧ rng j 7 ≠ .ok 0) →
    ∃ (ds : Str) (pos1 fuel0 : Nat), ds.length = js.length ∧
      (∀ c ∈ ds, c ∈ bytesOf "123456") ∧
      ∀ fuel, fuel0 ≤ fuel →
        randIDLoop rng fuel js.length i digits pos = .ret ((Join digits [] ++ ds, none), pos1) := by
  intro js
  induction js with
  | nil =>
    intro i digits pos _ _
    exact ⟨[], pos, 0, rfl, by simp, fun fuel _ => by simp [randIDLoop]⟩
  | cons j js ih =>
    intro i digits pos hsorted hnz
    obtain ⟨hpj, hnzj⟩ := hnz j (List.mem_cons_self _ _)
    obtain ⟨p, v, h1, h2, h3, _, h5⟩ := rollDie_finds rng hok (j - pos) pos j (by omega) hnzj
    rw [List.pairwise_cons] at hsorted
    obtain ⟨ds, pos1, fuel0, hd1, hd2, hd3⟩ := ih (i + 1) (digits ++ [[digitByte v.val]])
      (p + 1) hsorted.2 (fun k hk => ⟨by have := hsorted.1 k hk; omega,
        (hnz k (List.mem_cons_of_mem _ hk)).2⟩)
    refine ⟨digitByte v.val :: ds, pos1, max fuel0 (p - pos + 1), by simp [hd1], ?_, ?_⟩
    · intro c hc
      rcases List.mem_cons.1 hc with e | e
      · rw [e]; exact (digit_of_draw v).2.2 h3
      · exact hd2 c e
    · intro fuel hfuel
      have hf1 : fuel0 ≤ fuel := le_trans (le_max_left _ _) hfuel
      have hf2 : p - pos < fuel := by
        have := le_trans (le_max_right fuel0 (p - pos + 1)) hfuel
        omega
      simp only [List.length_cons, randIDLoop, h5 fuel hf2]
      rw [hd3 fuel hf1, Join_nil_sep_append]
      simp

/-! ### Errors and the empty word list -/

theorem PassphraseWith_err (fs : Files) (rng : Entropy) (path separator : Str) (wordCount : Int) :
    ∀ (fuel pos : Nat) (s e : Str) (pos1 : Nat),
    PassphraseWith fs rng fuel pos path separator wordCount = .ret ((s, some e), pos1) →
    s = [] := by
  intro fuel
  induction fuel using Nat.strong_induction_on with
  | _ fuel ih =>
    intro pos s e pos1 h
    unfold PassphraseWith at h
    split at h
    · simp only [Outcome.ret.injEq, Prod.mk.injEq] at h
      exact h.1.1.symm
    · split at h
      · simp at h
      · simp at h
      · simp only [Outcome.ret.injEq, Prod.mk.injEq] at h
        exact h.1.1.symm
      · split at h
        · simp at h
        · simp at h
        · simp only [Outcome.ret.injEq, Prod.mk.injEq] at h
          exact h.1.1.symm
        · rename_i words p1 hwl
          split at h
          · simp at h
          · rename_i fuel1
            unfold checkCharReq at h
            split at h
            · split at h
              · simp at h
              · rename_i fuel2
                exact ih fuel2 (by omega) _ _ _ _ h
            · simp at h

theorem find_empty_wordlist (tofind : Str) : find tofind [] = .ret [] := by
  have h : Split [] (bytesOf "\n") = [[]] := by decide
  simp [find, h, findLoop, idWordLineMatch]

theorem checkParams_empty_wordlist (path separator : Str) (wc : Int) (hne : separator ≠ [])
    (hal : alumMatch separator = false) (hwc : 6 ≤ wc) :
    checkParams path separator [] wc = .ret none := by
  rw [checkParams_none_iff]
  refine ⟨hne, ?_, hal, by simpa [DefaultWordCount] using hwc⟩
  rw [isInWordlist_false_iff]
  exact find_empty_wordlist separator

/-! ### Words and separators -/

theorem Contains_trans (l w sep : Str) (h1 : Contains l w = true) (h2 : Contains w sep = true) :
    Contains l sep = true := by
  obtain ⟨a, b, hl⟩ := (Contains_iff l w).1 h1
  obtain ⟨c, d, hw⟩ := (Contains_iff w sep).1 h2
  exact (Contains_iff l sep).2 ⟨a ++ c, d ++ b, by simp [hl, hw]⟩

theorem Contains_nil_left (sep : Str) (hne : sep ≠ []) : Contains [] sep = false := by
  cases sep with
  | nil => exact absurd rfl hne
  | cons c s => simp [Contains, HasPrefix]

/-- A non-empty word returned by `findLoop` is a substring of a qualifying line. -/
theorem findLoop_ret_substring (tofind : Str) : ∀ (ls : List Str) (w : Str),
    findLoop tofind ls = .ret w → w ≠ [] →
    ∃ l ∈ ls, idWordLineMatch l = true ∧ Contains l tofind = true ∧ Contains l w = true := by
  intro ls
  induction ls with
  | nil =>
    intro w h hne
    simp only [findLoop, Outcome.ret.injEq] at h
    exact absurd h.symm hne
  | cons l ls ih =>
    intro w h hne
    simp only [findLoop] at h
    split at h
    · rename_i hq
      split at h
      · rename_i f hf
        have hmem : f ∈ Fields l := List.getElem?_mem hf
        obtain ⟨h1, h2⟩ := Fields_spec l f hmem
        have ht : Trim f (bytesOf " ") = f := Trim_field f h1 (fun c hc => (h2 c hc).1)
        rw [ht] at h
        simp only [Outcome.ret.injEq] at h
        subst h
        simp only [Bool.and_eq_true] at hq
        exact ⟨l, List.mem_cons_self _ _, hq.1, hq.2, Fields_Contains l f hmem⟩
      · exact absurd h (by simp)
    · obtain ⟨l1, h1, h2⟩ := ih w h hne
      exact ⟨l1, List.mem_cons_of_mem _ h1, h2⟩

/-- When `isInWordlist` does not find the separator, no word that `find` returns
contains the separator. -/
theorem find_word_without_separator (separator wordlist : Str) (hne : separator ≠ [])
    (hin : isInWordlist separator wordlist = .ret false) (tofind w : Str)
    (hf : find tofind wordlist = .ret w) : Contains w separator = false := by
  by_cases hw : w = []
  · rw [hw]; exact Contains_nil_left separator hne
  · have hfind : find separator wordlist = .ret [] := (isInWordlist_false_iff _ _).1 hin
    obtain ⟨l, hl, hshape, _, hlw⟩ := findLoop_ret_substring tofind _ w hf hw
    rcases findLoop_ret separator _ _ hfind with ⟨_, h2⟩ | ⟨h1, _⟩
    · have h3 := h2 l hl
      rw [hshape, Bool.true_and] at h3
      cases hc : Contains w separator with
      | false => rfl
      | true =>
        rw [Contains_trans l w separator hlw hc] at h3
        exact absurd h3 (by simp)
    · exact absurd rfl h1

theorem wordsLoop_zero_fuel (rng : Entropy) (wordlist : Str) (n : Nat) (words : List Str)
    (pos : Nat) : wordsLoop rng 0 wordlist (n + 1) words pos = .diverge := by
  simp [wordsLoop, randWord, randID, maxDieRolls, randIDLoop, rollDie]

/-! ### Valid UTF-8 -/

/-- A rune is decoded in the same way from a start of the text that holds all of
its bytes. -/
theorem seqWidth_of_start (n : Nat) (t r : Str) (h : seqWidth n (t ++ r) - 1 ≤ t.length) :
    seqWidth n t = seqWidth n (t ++ r) := by
  have hk := leadSize_le n
  unfold seqWidth at h ⊢
  generalize leadSize n = k at *
  interval_cases k <;> rcases t with _ | ⟨b1, _ | ⟨b2, _ | ⟨b3, t⟩⟩⟩ <;>
    rcases r with _ | ⟨c1, _ | ⟨c2, _ | ⟨c3, r⟩⟩⟩ <;> simp_all <;> split at h <;> simp_all <;>
    split <;> simp_all

theorem validLoop_le : ∀ (s : Str) (k : Nat), validLoop s k = true → k ≤ s.length := by
  intro s
  induction s with
  | nil =>
    intro k h
    have : k = 0 := by simpa [validLoop] using h
    omega
  | cons b s ih =>
    intro k h
    cases k with
    | zero => omega
    | succ k =>
      simp only [validLoop] at h
      have := ih k h
      simp only [List.length_cons]
      omega

theorem validLoop_skip : ∀ (t : Str) (k : Nat), t.length = k → validLoop t k = true := by
  intro t
  induction t with
  | nil => intro k h; simp only [List.length_nil] at h; subst h; rfl
  | cons b t ih =>
    intro k h
    cases k with
    | zero => simp at h
    | succ k =>
      simp only [validLoop]
      exact ih k (by simpa using h)

/-- Behind a valid text the validity of the whole is that of the rest. -/
theorem validLoop_append (y : Str) : ∀ (x : Str) (k : Nat), validLoop x k = true →
    validLoop (x ++ y) k = validLoop y 0 := by
  intro x
  induction x with
  | nil =>
    intro k h
    have : k = 0 := by simpa [validLoop] using h
    subst this
    rfl
  | cons b s ih =>
    intro k h
    cases k with
    | zero =>
      simp only [validLoop, Bool.and_eq_true, Bool.or_eq_true, decide_eq_true_eq] at h
      have hw : runeWidth (b :: (s ++ y)) = runeWidth (b :: s) := by
        rcases h.1 with h1 | h1
        · rw [runeWidth_ascii b _ h1, runeWidth_ascii b _ h1]
        · exact seqWidth_append b.val s y h1
      have hc : (decide (b.val < 0x80) || decide (2 ≤ runeWidth (b :: s))) = true := by
        simpa using h.1
      simp only [List.cons_append, validLoop, List.append_eq, hw, hc, Bool.true_and]
      exact ih _ h.2
    | succ k =>
      simp only [validLoop] at h
      simp only [List.cons_append, validLoop, List.append_eq]
      exact ih k h

/-- A valid text that is cut in front of a byte that is no continuation byte
consists of two valid texts. -/
theorem validLoop_split (y : Str) (hy : ∀ c, y.head? = some c → isCont c = false) :
    ∀ (x : Str) (k : Nat), (∀ c ∈ (x ++ y).take k, isCont c = true) →
    validLoop (x ++ y) k = true → validLoop x k = true ∧ validLoop y 0 = true := by
  intro x
  induction x with
  | nil =>
    intro k hk hv
    cases k with
    | zero => exact ⟨rfl, hv⟩
    | succ k =>
      cases y with
      | nil => simp [validLoop] at hv
      | cons c y =>
        have h1 := hk c (by simp)
        rw [hy c rfl] at h1
        exact absurd h1 (by simp)
  | cons b s ih =>
    intro k hk hv
    cases k with
    | zero =>
      simp only [List.cons_append, validLoop, List.append_eq, Bool.and_eq_true, Bool.or_eq_true,
        decide_eq_true_eq] at hv
      obtain ⟨h1, h2⟩ := ih _ (seqWidth_tail b.val (s ++ y)) hv.2
      have hle := validLoop_le s _ h1
      have hw : runeWidth (b :: s) = runeWidth (b :: (s ++ y)) :=
        seqWidth_of_start b.val s y hle
      refine ⟨?_, h2⟩
      simp only [validLoop, Bool.and_eq_true, Bool.or_eq_true, decide_eq_true_eq, hw]
      exact ⟨hv.1, h1⟩
    | succ k =>
      simp only [List.cons_append, validLoop, List.append_eq] at hv
      have hk1 : ∀ c ∈ (s ++ y).take k, isCont c = true := fun c hc =>
        hk c (by simp only [List.cons_append, List.take_succ_cons]; exact List.mem_cons_of_mem _ hc)
      obtain ⟨h1, h2⟩ := ih k hk1 hv
      exact ⟨by simpa [validLoop] using h1, h2⟩

/-- The texts on both sides of an ASCII byte of a valid text are valid. -/
theorem ValidString_split_ascii (x y : Str) (c : Byte) (hc : c.val < 0x80)
    (h : ValidString (x ++ c :: y) = true) : ValidString x = true ∧ ValidString y = true := by
  have hcont : isCont c = false := by
    simp only [isCont, Bool.and_eq_false_iff, decide_eq_false_iff_not]
    omega
  obtain ⟨h1, h2⟩ := validLoop_split (c :: y)
    (fun d hd => by
      simp only [List.head?_cons, Option.some.injEq] at hd
      rw [← hd]
      exact hcont) x 0 (by simp) h
  refine ⟨h1, ?_⟩
  simp only [validLoop, runeWidth_ascii c y hc, Nat.sub_self, Bool.and_eq_true] at h2
  exact h2.2

theorem cut_spec (sep : Str) : ∀ (s a b : Str), cut sep s = some (a, b) → s = a ++ sep ++ b := by
  intro s
  induction s with
  | nil =>
    intro a b h
    simp only [cut] at h
    split at h
    · rename_i hp
      have hs : sep = [] := by
        cases sep with
        | nil => rfl
        | cons d sep => simp [HasPrefix] at hp
      simp only [Option.some.injEq, Prod.mk.injEq] at h
      rw [← h.1, ← h.2, hs]
      rfl
    · simp at h
  | cons c s ih =>
    intro a b h
    simp only [cut] at h
    split at h
    · rename_i hp
      obtain ⟨r, hr⟩ := (HasPrefix_iff _ _).1 hp
      simp only [Option.some.injEq, Prod.mk.injEq] at h
      rw [← h.1, ← h.2, hr, List.drop_left]
      simp
    · split at h
      · rename_i a1 b1 hcut
        simp only [Option.some.injEq, Prod.mk.injEq] at h
        rw [← h.1, ← h.2, ih a1 b1 hcut]
        simp
      · simp at h

theorem splitLoop_valid (c : Byte) (hc : c.val < 0x80) : ∀ (n : Nat) (s : Str),
    ValidString s = true → ∀ l ∈ splitLoop [c] n s, ValidString l = true := by
  intro n
  induction n with
  | zero =>
    intro s hs l hl
    simp only [splitLoop, List.mem_singleton] at hl
    rw [hl]; exact hs
  | succ n ih =>
    intro s hs l hl
    simp only [splitLoop] at hl
    split at hl
    · rename_i a b hcut
      have hsab := cut_spec [c] s a b hcut
      rw [hsab, List.append_assoc] at hs
      obtain ⟨h1, h2⟩ := ValidString_split_ascii a b c hc hs
      rcases List.mem_cons.1 hl with e | e
      · rw [e]; exact h1
      · exact ih b h2 l e
    · simp only [List.mem_singleton] at hl
      rw [hl]; exact hs

/-- The lines of a valid text are valid. -/
theorem Split_valid (s l : Str) (hs : ValidString s = true)
    (hl : l ∈ Split s (bytesOf "\n")) : ValidString l = true := by
  have hnl : bytesOf "\n" = [10] := by decide
  rw [hnl] at hl
  simp only [Split, List.cons_ne_nil, if_false] at hl
  exact splitLoop_valid 10 (by decide) _ s hs l hl

/-- The bytes of the first rune of a valid text are a valid text. -/
theorem validLoop_first (b : Byte) (s : Str) (h : validLoop (b :: s) 0 = true) :
    ValidString (b :: s.take (runeWidth (b :: s) - 1)) = true := by
  simp only [validLoop, Bool.and_eq_true, Bool.or_eq_true, decide_eq_true_eq] at h
  have hle := validLoop_le s _ h.2
  have hlen : (s.take (runeWidth (b :: s) - 1)).length = runeWidth (b :: s) - 1 := by
    rw [List.length_take]
    omega
  have hw : runeWidth (b :: s.take (runeWidth (b :: s) - 1)) = runeWidth (b :: s) := by
    have h1 := seqWidth_of_start b.val (s.take (runeWidth (b :: s) - 1))
      (s.drop (runeWidth (b :: s) - 1))
    rw [List.take_append_drop] at h1
    exact h1 (by rw [hlen]; exact le_refl _)
  simp only [ValidString, validLoop, Bool.and_eq_true, Bool.or_eq_true, decide_eq_true_eq, hw]
  exact ⟨h.1, validLoop_skip _ _ hlen⟩

theorem fieldsLoop_valid (s : Str) : ∀ (k : Nat) (sp : Bool) (cur : Str),
    validLoop s k = true →
    (if sp then ValidString cur.reverse else ValidString (cur.reverse ++ s.take k)) = true →
    ∀ f ∈ fieldsLoop s k sp cur, ValidString f = true := by
  induction s with
  | nil =>
    intro k sp cur hv hq f hf
    have hcur : ValidString cur.reverse = true := by
      cases sp with
      | true => simpa using hq
      | false => simpa using hq
    simp only [fieldsLoop] at hf
    split at hf
    · simp at hf
    · simp only [List.mem_singleton] at hf
      rw [hf]; exact hcur
  | cons b s ih =>
    intro k sp cur hv hq f hf
    cases k with
    | succ k =>
      simp only [validLoop] at hv
      simp only [fieldsLoop] at hf
      split at hf
      · rename_i hsp
        refine ih k sp cur hv ?_ f hf
        rw [hsp] at hq ⊢
        simpa using hq
      · rename_i hsp
        have hsp1 : sp = false := by simpa using hsp
        refine ih k sp (b :: cur) hv ?_ f hf
        rw [hsp1] at hq ⊢
        simpa using hq
    | zero =>
      have hcur : ValidString cur.reverse = true := by
        cases sp with
        | true => simpa using hq
        | false => simpa using hq
      have hv2 : validLoop s (runeWidth (b :: s) - 1) = true := by
        simp only [validLoop, Bool.and_eq_true] at hv
        exact hv.2
      simp only [fieldsLoop] at hf
      split at hf
      · split at hf
        · exact ih _ true [] hv2 (by simp [ValidString, validLoop]) f hf
        · rcases List.mem_cons.1 hf with e | e
          · rw [e]; exact hcur
          · exact ih _ true [] hv2 (by simp [ValidString, validLoop]) f e
      · refine ih _ false (b :: cur) hv2 ?_ f hf
        have h1 := validLoop_append (b :: s.take (runeWidth (b :: s) - 1)) cur.reverse 0 hcur
        have h2 := validLoop_first b s hv
        simp only [Bool.false_eq_true, if_false, List.reverse_cons, List.append_assoc,
          List.singleton_append]
        unfold ValidString at h2 ⊢
        rw [h1, h2]

/-- The fields of a valid text are valid. -/
theorem Fields_valid (s f : Str) (hs : ValidString s = true) (hf : f ∈ Fields s) :
    ValidString f = true :=
  fieldsLoop_valid s 0 false [] hs (by simp [ValidString, validLoop]) f hf

/-- A non-empty word returned by `findLoop` is a field of one of the lines. -/
theorem findLoop_ret_field (tofind : Str) : ∀ (ls : List Str) (w : Str),
    findLoop tofind ls = .ret w → w ≠ [] → ∃ l ∈ ls, w ∈ Fields l := by
  intro ls
  induction ls with
  | nil =>
    intro w h hne
    simp only [findLoop, Outcome.ret.injEq] at h
    exact absurd h.symm hne
  | cons l ls ih =>
    intro w h hne
    simp only [findLoop] at h
    split at h
    · split at h
      · rename_i f hf
        have hmem : f ∈ Fields l := List.getElem?_mem hf
        obtain ⟨h1, h2⟩ := Fields_spec l f hmem
        have ht : Trim f (bytesOf " ") = f := Trim_field f h1 (fun c hc => (h2 c hc).1)
        rw [ht] at h
        simp only [Outcome.ret.injEq] at h
        subst h
        exact ⟨l, List.mem_cons_self _ _, hmem⟩
      · exact absurd h (by simp)
    · obtain ⟨l1, h1, h2⟩ := ih w h hne
      exact ⟨l1, List.mem_cons_of_mem _ h1, h2⟩

/-- The words that `find` returns for a word list of valid UTF-8 are valid UTF-8. -/
theorem find_valid (tofind wordlist w : Str) (hs : ValidString wordlist = true)
    (h : find tofind wordlist = .ret w) : ValidString w = true := by
  by_cases hw : w = []
  · rw [hw]; rfl
  · obtain ⟨l, hl, hf⟩ := findLoop_ret_field tofind _ w h hw
    exact Fields_valid l w (Split_valid wordlist l hs hl) hf

theorem Join_cons_head (b : Str) (rest : List Str) (sep : Str) :
    ∃ x, Join (b :: rest) sep = b ++ x := by
  cases rest with
  | nil => exact ⟨[], by simp [Join]⟩
  | cons c rest => exact ⟨sep ++ Join (c :: rest) sep, by simp [Join]⟩

/-- With a non-empty separator, a join of non-empty words of valid UTF-8 has at
least one character for every word and one for every separator. -/
theorem runeCount_Join_valid_words (sep : Str) (hne : sep ≠ []) :
    ∀ (words : List Str), (∀ w ∈ words, w ≠ [] ∧ ValidString w = true) →
    words.length + (words.length - 1) ≤ runeCount (Join words sep) := by
  intro words
  induction words with
  | nil => intro _; simp
  | cons a t ih =>
    intro hw
    obtain ⟨ha0, hav⟩ := hw a (List.mem_cons_self _ _)
    have ha : 1 ≤ runeCount a := runeCount_pos a ha0
    cases t with
    | nil => simp only [Join, List.length_singleton]; omega
    | cons b rest =>
      have h2 := ih (fun w hm => hw w (List.mem_cons_of_mem _ hm))
      have hs : 1 ≤ runeCount sep := runeCount_pos sep hne
      obtain ⟨hb0, hbv⟩ := hw b (List.mem_cons_of_mem _ (List.mem_cons_self _ _))
      obtain ⟨x, hx⟩ := Join_cons_head b rest sep
      have hstart : ∀ c, (Join (b :: rest) sep).head? = some c → isCont c = false := by
        intro c hc
        obtain ⟨b0, b1, hb⟩ := List.exists_cons_of_ne_nil hb0
        rw [hx, hb] at hc
        simp only [List.cons_append, List.head?_cons, Option.some.injEq] at hc
        rw [hb] at hbv
        rw [← hc]
        exact ValidString_head b0 b1 hbv
      have hj : Join (a :: b :: rest) sep = a ++ (sep ++ Join (b :: rest) sep) := by
        simp [Join]
      rw [hj, runeCount_append_valid a _ hav, runeCount_append_start sep _ hstart]
      simp only [List.length_cons] at h2 ⊢
      omega

/-! ### The first non-zero draws -/

theorem rawDraw_eq_zero (rng : Entropy) (hok : ∀ i, ∃ v, rng i 7 = .ok v) (i : Nat)
    (h : rawDraw rng i = 0) : rng i 7 = .ok 0 := by
  obtain ⟨v, hv⟩ := hok i
  rw [hv]
  simp only [rawDraw, hv] at h
  exact congrArg _ (Fin.ext h)

theorem rawDraw_ne_zero (rng : Entropy) (i : Nat) (h : rawDraw rng i ≠ 0) :
    ∃ v : Fin 7, rng i 7 = .ok v ∧ v.val = rawDraw rng i ∧ v.val ≠ 0 := by
  unfold rawDraw at h ⊢
  cases hv : rng i 7 with
  | error e => simp [hv] at h
  | ok v =>
    simp only [hv] at h
    exact ⟨v, rfl, rfl, h⟩

/-- When the draws from `pos` up to `p` are zero and draw `p` is not, `rollDie`
returns the digit of draw `p` and leaves the source at `p + 1`. -/
theorem rollDie_first (rng : Entropy) (hok : ∀ i, ∃ v, rng i 7 = .ok v) :
    ∀ (d pos p : Nat), p = pos + d → (∀ i, pos ≤ i → i < p → rawDraw rng i = 0) →
    rawDraw rng p ≠ 0 → ∀ fuel, d < fuel →
      rollDie rng (die.mk 6 1) fuel pos = .ret (([digitByte (rawDraw rng p)], none), p + 1) := by
  intro d
  induction d with
  | zero =>
    intro pos p hp _ hnz fuel hf
    have hpp : p = pos := by omega
    subst hpp
    obtain ⟨v, hv, hv1, hv2⟩ := rawDraw_ne_zero rng p hnz
    obtain ⟨f, rfl⟩ : ∃ f, fuel = f + 1 := ⟨fuel - 1, by omega⟩
    rw [rollDie_six_succ, hv, ← hv1]
    simp [hv2]
  | succ d ih =>
    intro pos p hp hz hnz fuel hf
    obtain ⟨f, rfl⟩ : ∃ f, fuel = f + 1 := ⟨fuel - 1, by omega⟩
    have h0 := rawDraw_eq_zero rng hok pos (hz pos (le_refl _) (by omega))
    rw [rollDie_six_succ, h0]
    simp only [Fin.val_zero, if_true]
    exact ih (pos + 1) p (by omega) (fun i h1 h2 => hz i (by omega) h2) hnz f (by omega)

theorem endOf_ge (js : List Nat) : ∀ (pos : Nat), js.Pairwise (fun a b => a < b) →
    (∀ j ∈ js, pos ≤ j) → pos ≤ endOf pos js ∧ ∀ j ∈ js, j < endOf pos js := by
  induction js with
  | nil => intro pos _ _; simp [endOf]
  | cons j js ih =>
    intro pos hs hp
    rw [List.pairwise_cons] at hs
    obtain ⟨h1, h2⟩ := ih (j + 1) hs.2 (fun k hk => hs.1 k hk)
    have hj := hp j (List.mem_cons_self _ _)
    simp only [endOf]
    refine ⟨by omega, fun k hk => ?_⟩
    rcases List.mem_cons.1 hk with e | e
    · omega
    · exact h2 k e

/-- When `js` are the positions of the first non-zero draws from `pos` on, the
loop of `randID` appends their digits in order and leaves the source behind the
last of them. -/
theorem randIDLoop_exact (rng : Entropy) (hok : ∀ i, ∃ v, rng i 7 = .ok v) :
    ∀ (js : List Nat) (i : Int) (digits : List Str) (pos : Nat),
    js.Pairwise (fun a b => a < b) → (∀ j ∈ js, pos ≤ j ∧ rawDraw rng j ≠ 0) →
    (∀ k, pos ≤ k → k < endOf pos js → k ∉ js → rawDraw rng k = 0) →
    ∀ fuel, endOf pos js - pos < fuel →
      randIDLoop rng fuel js.length i digits pos =
        .ret ((Join digits [] ++ js.map (fun j => digitByte (rawDraw rng j)), none),
          endOf pos js) := by
  intro js
  induction js with
  | nil =>
    intro i digits pos _ _ _ fuel _
    simp [randIDLoop, endOf]
  | cons j js ih =>
    intro i digits pos hs hnz hz fuel hf
    rw [List.pairwise_cons] at hs
    obtain ⟨hpj, hnzj⟩ := hnz j (List.mem_cons_self _ _)
    obtain ⟨he1, he2⟩ := endOf_ge js (j + 1) hs.2 (fun k hk => hs.1 k hk)
    simp only [endOf] at hz hf ⊢
    have hroll := rollDie_first rng hok (j - pos) pos j (by omega)
      (fun k h1 h2 => hz k h1 (by omega) (by
        intro hk
        rcases List.mem_cons.1 hk with e | e
        · omega
        · have := hs.1 k e
          omega)) hnzj fuel (by omega)
    simp only [List.length_cons, randIDLoop, hroll]
    rw [ih (i + 1) (digits ++ [[digitByte (rawDraw rng j)]]) (j + 1) hs.2
      (fun k hk => ⟨hs.1 k hk, (hnz k (List.mem_cons_of_mem _ hk)).2⟩)
      (fun k h1 h2 h3 => hz k (by omega) h2 (by
        intro hk
        rcases List.mem_cons.1 hk with e | e
        · omega
        · exact h3 e)) fuel (by omega), Join_nil_sep_append]
    simp

/-! ### Enough non-zero draws -/

theorem rawDraw_of_ok (rng : Entropy) (i : Nat) (v : Fin 7) (h : rng i 7 = .ok v) :
    rawDraw rng i = v.val := by
  simp [rawDraw, h]

/-- With draws that never fail and non-zero draws at the increasing positions
`js`, the loop of `randID` returns `js.length` more digits, each the digit of a
non-zero draw, and does not read beyond the last position of `js`. -/
theorem randIDLoop_finds_le (rng : Entropy) (hok : ∀ i, ∃ v, rng i 7 = .ok v) :
    ∀ (js : List Nat) (i : Int) (digits : List Str) (pos : Nat),
    js.Pairwise (fun a b => a < b) → (∀ j ∈ js, pos ≤ j ∧ rawDraw rng j ≠ 0) →
    ∃ (ds : Str) (pos1 fuel0 : Nat), ds.length = js.length ∧
      (∀ c ∈ ds, ∃ j, pos ≤ j ∧ rawDraw rng j ≠ 0 ∧ c = digitByte (rawDraw rng j)) ∧
      pos ≤ pos1 ∧ (∀ k, pos ≤ k → (∀ j ∈ js, j < k) → pos1 ≤ k) ∧
      ∀ fuel, fuel0 ≤ fuel →
        randIDLoop rng fuel js.length i digits pos = .ret ((Join digits [] ++ ds, none), pos1) := by
  intro js
  induction js with
  | nil =>
    intro i digits pos _ _
    exact ⟨[], pos, 0, rfl, by simp, le_refl _, fun k hk _ => hk,
      fun fuel _ => by simp [randIDLoop]⟩
  | cons j js ih =>
    intro i digits pos hsorted hnz
    obtain ⟨hpj, hnzj⟩ := hnz j (List.mem_cons_self _ _)
    have hnzj1 : rng j 7 ≠ .ok 0 := by
      intro e
      exact hnzj (by simp [rawDraw, e])
    obtain ⟨p, v, h1, h2, h3, h4, h5⟩ := rollDie_finds rng hok (j - pos) pos j (by omega) hnzj1
    have hraw : rawDraw rng p = v.val := rawDraw_of_ok rng p v h4
    rw [List.pairwise_cons] at hsorted
    obtain ⟨ds, pos1, fuel0, hd1, hd2, hd0, hd3, hd4⟩ := ih (i + 1)
      (digits ++ [[digitByte v.val]]) (p + 1) hsorted.2
      (fun k hk => ⟨by have := hsorted.1 k hk; omega, (hnz k (List.mem_cons_of_mem _ hk)).2⟩)
    refine ⟨digitByte v.val :: ds, pos1, max fuel0 (p - pos + 1), by simp [hd1], ?_,
      by omega, ?_, ?_⟩
    · intro c hc
      rcases List.mem_cons.1 hc with e | e
      · exact ⟨p, h1, by rw [hraw]; exact h3, by rw [e, hraw]⟩
      · obtain ⟨j1, hj1, hj2, hj3⟩ := hd2 c e
        exact ⟨j1, by omega, hj2, hj3⟩
    · intro k _ hk2
      have hjk := hk2 j (List.mem_cons_self _ _)
      exact hd3 k (by omega) (fun j1 hj1 => hk2 j1 (List.mem_cons_of_mem _ hj1))
    · intro fuel hfuel
      have hf1 : fuel0 ≤ fuel := le_trans (le_max_left _ _) hfuel
      have hf2 : p - pos < fuel := by
        have := le_trans (le_max_right fuel0 (p - pos + 1)) hfuel
        omega
      simp only [List.length_cons, randIDLoop, h5 fuel hf2]
      rw [hd4 fuel hf1, Join_nil_sep_append]
      simp

/-- With draws that never fail, five non-zero draws for every word and a word
list in which every identifier that the draws can give resolves, the word loop
completes once the step budget is large enough. -/
theorem wordsLoop_finds (rng : Entropy) (wordlist : Str) (hok : ∀ i, ∃ v, rng i 7 = .ok v) :
    ∀ (n : Nat) (js : List Nat) (acc : List Str) (pos : Nat),
    js.length = 5 * n → js.Pairwise (fun a b => a < b) →
    (∀ j ∈ js, pos ≤ j ∧ rawDraw rng j ≠ 0) →
    (∀ wordID : Str, wordID.length = 5 →
      (∀ c ∈ wordID, ∃ j, pos ≤ j ∧ rawDraw rng j ≠ 0 ∧ c = digitByte (rawDraw rng j)) →
      ∃ w, w ≠ [] ∧ find wordID wordlist = .ret w) →
    ∃ (new : List Str) (pos1 fuel0 : Nat), new.length = n ∧
      ∀ fuel, fuel0 ≤ fuel →
        wordsLoop rng fuel wordlist n acc pos = .ret ((acc ++ new, none), pos1) := by
  intro n
  induction n with
  | zero =>
    intro js acc pos _ _ _ _
    exact ⟨[], pos, 0, rfl, fun fuel _ => by simp [wordsLoop]⟩
  | succ n ih =>
    intro js acc pos hlen hsorted hnz hres
    have hsplit : js = js.take 5 ++ js.drop 5 := (List.take_append_drop 5 js).symm
    have hl1 : (js.take 5).length = 5 := by rw [List.length_take]; omega
    have hl2 : (js.drop 5).length = 5 * n := by rw [List.length_drop]; omega
    rw [hsplit, List.pairwise_append] at hsorted
    obtain ⟨hs1, hs2, hs3⟩ := hsorted
    obtain ⟨ds, pos1, fuel0, hd1, hd2, hd0, hd3, hd4⟩ := randIDLoop_finds_le rng hok
      (js.take 5) 0 [] pos hs1 (fun j hj => hnz j (List.mem_of_mem_take hj))
    rw [hl1] at hd1 hd4
    obtain ⟨w, hw1, hw2⟩ := hres ds hd1 hd2
    obtain ⟨new, pos2, fuel1, hn1, hn2⟩ := ih (js.drop 5) (acc ++ [w]) pos1 hl2 hs2
      (fun j hj => ⟨hd3 j (hnz j (List.mem_of_mem_drop hj)).1 (fun j1 hj1 => hs3 j1 hj1 j hj),
        (hnz j (List.mem_of_mem_drop hj)).2⟩)
      (fun wordID h5 hc => hres wordID h5 (fun c hcm => by
        obtain ⟨j, hj1, hj2, hj3⟩ := hc c hcm
        exact ⟨j, by omega, hj2, hj3⟩))
    have hid : ∀ fuel, fuel0 ≤ fuel → randID rng fuel pos = .ret ((ds, none), pos1) := by
      intro fuel hf
      have := hd4 fuel hf
      simpa [randID, maxDieRolls, Join] using this
    have hword : ∀ fuel, fuel0 ≤ fuel →
        randWord rng fuel wordlist pos = .ret ((w, none), pos1) := by
      intro fuel hf
      simp [randWord, hid fuel hf, hw2, hw1]
    refine ⟨w :: new, pos2, max fuel0 fuel1, by simp [hn1], fun fuel hf => ?_⟩
    have hf0 : fuel0 ≤ fuel := le_trans (le_max_left _ _) hf
    have hf1 : fuel1 ≤ fuel := le_trans (le_max_right _ _) hf
    simp only [wordsLoop, hword fuel hf0, hn2 fuel hf1]
    simp

/-! ### Ten words -/

/-- For an accepted separator and a word count of at least 10, when the separator
or the word list is valid UTF-8 and the word loop of the first attempt
completes, the joined passphrase has at least `wordCount + (wordCount - 1)`
characters and `PassphraseWith` returns it as the result of that first attempt. -/
theorem PassphraseWith_first_attempt (fs : Files) (rng : Entropy) (fuel pos : Nat)
    (path separator wordlist : Str) (wc : Int) (words : List Str) (pos1 : Nat)
    (hfs : fs path = .ok wordlist)
    (hcp : checkParams path separator wordlist wc = .ret none)
    (hvalid : ValidString separator = true ∨ ValidString wordlist = true) (hwc : 10 ≤ wc)
    (hloop : wordsLoop rng fuel wordlist wc.toNat [] pos = .ret ((words, none), pos1)) :
    (∀ w ∈ words, w ≠ []) ∧ separator ≠ [] ∧
    wc + (wc - 1) ≤ (runeCount (Join words separator) : Int) ∧
    19 ≤ runeCount (Join words separator) ∧
    meetsCharReq (Join words separator) = true ∧
    PassphraseWith fs rng fuel pos path separator wc =
      .ret ((Join words separator, none), pos1) := by
  obtain ⟨hne, _, _, _⟩ := (checkParams_none_iff _ _ _ _).1 hcp
  obtain ⟨new, h1, h2, h3⟩ := wordsLoop_ok _ _ _ _ _ _ _ _ hloop
  simp only [List.nil_append] at h1
  subst h1
  have hw : ∀ w ∈ words, w ≠ [] := fun w hm => (h3 w hm).1
  have hlen : words.length + (words.length - 1) ≤ runeCount (Join words separator) := by
    rcases hvalid with hv | hv
    · exact runeCount_Join separator hne hv words hw
    · refine runeCount_Join_valid_words separator hne words (fun w hm => ⟨hw w hm, ?_⟩)
      obtain ⟨_, wordID, hf⟩ := h3 w hm
      exact find_valid wordID wordlist w hv hf
  have h19 : 19 ≤ runeCount (Join words separator) := by omega
  have hm : meetsCharReq (Join words separator) = true :=
    (meetsCharReq_eq_true _).2 (by omega)
  refine ⟨hw, hne, by omega, h19, hm, ?_⟩
  cases fuel with
  | zero =>
    obtain ⟨n, hn⟩ : ∃ n, wc.toNat = n + 1 := ⟨wc.toNat - 1, by omega⟩
    rw [hn, wordsLoop_zero_fuel] at hloop
    exact absurd hloop (by simp)
  | succ f =>
    unfold PassphraseWith
    simp only [hfs, hcp, hloop]
    unfold checkCharReq
    simp [hm]

/-! ### The die in general -/

theorem int64_of_range (x : Int) (h1 : -2 ^ 63 ≤ x) (h2 : x < 2 ^ 63) : int64 x = x := by
  unfold int64
  norm_num at h1 h2 ⊢
  omega

theorem int64_wrap (x : Int) (hx : x = 2 ^ 63) : int64 x = -2 ^ 63 := by
  subst hx
  decide

/-- A draw of `crInt` that succeeds is a value of `[0, max)` and uses one draw. -/
theorem crInt_ok (rng : Entropy) (pos : Nat) (max r : Int) (pos1 : Nat)
    (h : crInt rng pos max = .ret ((r, none), pos1)) :
    0 < max ∧ 0 ≤ r ∧ r < max ∧ pos1 = pos + 1 := by
  unfold crInt at h
  split at h
  · simp at h
  · rename_i hmax
    split at h
    · simp at h
    · rename_i v _
      simp only [Outcome.ret.injEq, Prod.mk.injEq, and_true] at h
      obtain ⟨h1, h2⟩ := h
      have hv := v.isLt
      refine ⟨by omega, by omega, ?_, h2.symm⟩
      rw [← h1]
      omega

/-- A successful `rollDie` returns the rendering of a value between 1 and `maxRoll`. -/
theorem rollDie_range (rng : Entropy) (d : die)
    (hint : -2 ^ 63 ≤ d.maxRoll ∧ d.maxRoll < 2 ^ 63) :
    ∀ (fuel pos : Nat) (s : Str) (pos1 : Nat),
    rollDie rng d fuel pos = .ret ((s, none), pos1) →
    ∃ v : Int, s = FormatInt v ∧ 1 ≤ v ∧ v ≤ d.maxRoll := by
  intro fuel
  induction fuel with
  | zero =>
    intro pos s pos1 h
    simp [rollDie] at h
  | succ f ih =>
    intro pos s pos1 h
    unfold rollDie at h
    split at h
    · simp at h
    · simp at h
    · simp at h
    · rename_i r p1 hc
      obtain ⟨h1, h2, h3, _⟩ := crInt_ok rng pos _ r p1 hc
      have hmax : int64 (d.maxRoll + 1) = d.maxRoll + 1 := by
        by_cases hm : d.maxRoll + 1 = 2 ^ 63
        · rw [int64_wrap _ hm] at h1
          norm_num at h1
        · apply int64_of_range
          · have := hint.1; omega
          · have := hint.2
            norm_num at hm this ⊢
            omega
      rw [hmax] at h3
      have hr : int64 r = r := by
        apply int64_of_range
        · have : (-2 : Int) ^ 63 ≤ 0 := by norm_num
          omega
        · have := hint.2; omega
      simp only [hr] at h
      split at h
      · rename_i hpos
        simp only [Outcome.ret.injEq, Prod.mk.injEq, and_true] at h
        exact ⟨r, h.1.symm, by omega, by omega⟩
      · exact ih _ _ _ h

/-! ### Well-formed word lists -/

theorem isDieDigit_spec (c : Byte) (h : isDieDigit c = true) :
    isDigit c = true ∧ c.val < 0x80 ∧ isSpace c.val = false ∧ isReSpace c = false ∧ c ≠ 10 := by
  simp only [isDieDigit, Bool.and_eq_true, decide_eq_true_eq] at h
  refine ⟨by simp [isDigit]; omega, by omega, ?_, ?_, ?_⟩
  · simp only [isSpace, Bool.or_eq_false_iff, Bool.and_eq_false_iff, decide_eq_false_iff_not,
      beq_eq_false_iff_ne, ne_eq]
    omega
  · simp only [isReSpace, Bool.or_eq_false_iff, beq_eq_false_iff_ne, ne_eq]
    omega
  · intro e
    rw [e] at h
    revert h
    decide

theorem isReSpace_spec (c : Byte) (h : isReSpace c = true) :
    c.val < 0x80 ∧ isSpace c.val = true ∧ isDieDigit c = false := by
  simp only [isReSpace, Bool.or_eq_true, beq_iff_eq] at h
  refine ⟨by omega, ?_, ?_⟩
  · simp only [isSpace, Bool.or_eq_true, Bool.and_eq_true, decide_eq_true_eq, beq_iff_eq]
    omega
  · simp only [isDieDigit, Bool.and_eq_false_iff, decide_eq_false_iff_not]
    omega

/-- The parts of a well-formed entry. -/
theorem Entry.wellFormed_spec (e : Entry) (h : e.wellFormed = true) :
    e.ident.length = 5 ∧ (∀ c ∈ e.ident, isDieDigit c = true) ∧ e.ws ≠ [] ∧
    (∀ c ∈ e.ws, isReSpace c = true ∧ c ≠ 10) ∧ Fields e.word = [e.word] ∧ e.word ≠ [] ∧
    (∀ c ∈ e.word, isAsciiSpace c = false) := by
  simp only [Entry.wellFormed, Bool.and_eq_true, beq_iff_eq, List.all_eq_true, Bool.not_eq_true',
    List.isEmpty_eq_false, bne_iff_ne, ne_eq] at h
  obtain ⟨⟨⟨⟨h1, h2⟩, h3⟩, h4⟩, h5⟩ := h
  obtain ⟨h6, h7⟩ := Fields_spec e.word e.word (by rw [h5]; exact List.mem_singleton_self _)
  exact ⟨h1, h2, h3, h4, h5, h6, fun c hc => (h7 c hc).1⟩

/-- At the start of a rune the scan of `Fields` does not look at its flag. -/
theorem fieldsLoop_start (s : Str) (sp : Bool) (cur : Str) :
    fieldsLoop s 0 sp cur = fieldsLoop s 0 false cur := by
  cases s with
  | nil => simp [fieldsLoop]
  | cons a s => simp [fieldsLoop]

theorem fieldsLoop_nonspace (x : Str) : ∀ (s : Str) (sp : Bool) (cur : Str),
    (∀ c ∈ x, c.val < 0x80 ∧ isSpace c.val = false) →
    fieldsLoop (x ++ s) 0 sp cur = fieldsLoop s 0 false (x.reverse ++ cur) := by
  induction x with
  | nil => intro s sp cur _; exact fieldsLoop_start s sp cur
  | cons a x ih =>
    intro s sp cur h
    obtain ⟨ha1, ha2⟩ := h a (List.mem_cons_self _ _)
    simp only [List.cons_append, fieldsLoop, runeValue_ascii a _ ha1, runeWidth_ascii a _ ha1, ha2,
      Bool.false_eq_true, if_false, List.append_eq, Nat.sub_self]
    rw [ih s false (a :: cur) (fun c hc => h c (List.mem_cons_of_mem _ hc))]
    simp

theorem fieldsLoop_space_nil (ws : Str) : ∀ (s : Str),
    (∀ c ∈ ws, c.val < 0x80 ∧ isSpace c.val = true) →
    fieldsLoop (ws ++ s) 0 true [] = fieldsLoop s 0 false [] := by
  induction ws with
  | nil => intro s _; exact fieldsLoop_start s true []
  | cons a ws ih =>
    intro s h
    obtain ⟨ha1, ha2⟩ := h a (List.mem_cons_self _ _)
    simp only [List.cons_append, fieldsLoop, runeValue_ascii a _ ha1, runeWidth_ascii a _ ha1, ha2,
      if_true, List.isEmpty_nil, List.append_eq, Nat.sub_self]
    exact ih s (fun c hc => h c (List.mem_cons_of_mem _ hc))

theorem fieldsLoop_space_cons (ws s cur : Str) (hws : ws ≠ []) (hcur : cur ≠ [])
    (h : ∀ c ∈ ws, c.val < 0x80 ∧ isSpace c.val = true) :
    fieldsLoop (ws ++ s) 0 false cur = cur.reverse :: fieldsLoop s 0 false [] := by
  cases ws with
  | nil => exact absurd rfl hws
  | cons a ws =>
    obtain ⟨ha1, ha2⟩ := h a (List.mem_cons_self _ _)
    have hc : cur.isEmpty = false := by simpa using hcur
    simp only [List.cons_append, fieldsLoop, runeValue_ascii a _ ha1, runeWidth_ascii a _ ha1, ha2,
      if_true, hc, Bool.false_eq_true, if_false, List.append_eq, Nat.sub_self]
    rw [fieldsLoop_space_nil ws s (fun c hc => h c (List.mem_cons_of_mem _ hc))]

/-- The fields of the line of a well-formed entry are its identifier and its word. -/
theorem Fields_line (e : Entry) (h : e.wellFormed = true) :
    Fields e.line = [e.ident, e.word] := by
  obtain ⟨h1, h2, h3, h4, h5, _, _⟩ := e.wellFormed_spec h
  have hid : e.ident ≠ [] := by
    intro e0
    rw [e0] at h1
    simp at h1
  have hw : fieldsLoop e.word 0 false [] = [e.word] := h5
  unfold Fields Entry.line
  rw [List.append_assoc, fieldsLoop_nonspace e.ident _ _ _
      (fun c hc => ⟨(isDieDigit_spec c (h2 c hc)).2.1, (isDieDigit_spec c (h2 c hc)).2.2.1⟩),
    List.append_nil, fieldsLoop_space_cons e.ws e.word e.ident.reverse h3 (by simpa using hid)
      (fun c hc => ⟨(isReSpace_spec c (h4 c hc).1).1, (isReSpace_spec c (h4 c hc).1).2.1⟩),
    List.reverse_reverse, hw]

theorem idWordLineMatch_append (a b : Str) (c d : Byte) (hc : isDigit c = true)
    (hd : isReSpace d = true) : idWordLineMatch (a ++ c :: d :: b) = true := by
  induction a with
  | nil => simp [idWordLineMatch, hc, hd]
  | cons x a ih =>
    cases a with
    | nil =>
      simp only [List.cons_append, List.nil_append, idWordLineMatch, Bool.or_eq_true] at ih ⊢
      exact Or.inr ih
    | cons y a =>
      simp only [List.cons_append, idWordLineMatch, Bool.or_eq_true] at ih ⊢
      exact Or.inr ih

/-- The line of a well-formed entry has the entry shape of `idWordLine`. -/
theorem idWordLineMatch_line (e : Entry) (h : e.wellFormed = true) :
    idWordLineMatch e.line = true := by
  obtain ⟨h1, h2, h3, h4, _, _, _⟩ := e.wellFormed_spec h
  have hid : e.ident ≠ [] := by
    intro e0
    rw [e0] at h1
    simp at h1
  obtain ⟨w0, wrest, hws⟩ := List.exists_cons_of_ne_nil h3
  have hsplit : e.ident = e.ident.dropLast ++ [e.ident.getLast hid] :=
    (List.dropLast_append_getLast hid).symm
  have hline : e.line = e.ident.dropLast ++ e.ident.getLast hid :: w0 :: (wrest ++ e.word) := by
    unfold Entry.line
    rw [hws]
    conv_lhs => rw [hsplit]
    simp
  rw [hline]
  exact idWordLineMatch_append _ _ _ _
    (isDieDigit_spec _ (h2 _ (List.getLast_mem hid))).1
    (h4 w0 (by rw [hws]; exact List.mem_cons_self _ _)).1

/-- A substring of `x ++ y` lies in `x`, lies in `y`, or is a non-empty end of `x`
followed by a non-empty start of `y`. -/
theorem Contains_append_cases (x y sub : Str) (h : Contains (x ++ y) sub = true) :
    Contains x sub = true ∨ Contains y sub = true ∨
    ∃ s1 s2, s1 ≠ [] ∧ s2 ≠ [] ∧ sub = s1 ++ s2 ∧ (∃ p, x = p ++ s1) ∧ ∃ q, y = s2 ++ q := by
  obtain ⟨a, b, hab⟩ := (Contains_iff _ _).1 h
  have hab1 : x ++ y = (a ++ sub) ++ b := hab
  rcases List.append_eq_append_iff.1 hab1 with ⟨a1, h1, h2⟩ | ⟨c1, h1, _⟩
  · rcases List.append_eq_append_iff.1 h1 with ⟨a2, h3, h4⟩ | ⟨c2, _, h4⟩
    · by_cases ha2 : a2 = []
      · refine Or.inr (Or.inl ((Contains_iff _ _).2 ⟨[], b, ?_⟩))
        rw [h2, h4, ha2]
        simp
      · by_cases ha1 : a1 = []
        · refine Or.inl ((Contains_iff _ _).2 ⟨a, [], ?_⟩)
          rw [h3, h4, ha1]
          simp
        · exact Or.inr (Or.inr ⟨a2, a1, ha2, ha1, h4, ⟨a, h3⟩, ⟨b, h2⟩⟩)
    · refine Or.inr (Or.inl ((Contains_iff _ _).2 ⟨c2, b, ?_⟩))
      rw [h2, h4]
  · exact Or.inl ((Contains_iff _ _).2 ⟨a, c1, h1⟩)

/-- A text of die digits cannot share a character with the white space of an entry. -/
theorem digits_not_in_ws (sub ws : Str) (c : Byte) (hsub : ∀ c ∈ sub, isDieDigit c = true)
    (hws : ∀ c ∈ ws, isReSpace c = true ∧ c ≠ 10) (h1 : c ∈ sub) (h2 : c ∈ ws) : False := by
  have h3 := (isReSpace_spec c (hws c h2).1).2
  rw [hsub c h1] at h3
  exact absurd h3 (by simp)

/-- An identifier that occurs in the line of a well-formed entry is the identifier of
the entry or occurs in its word. -/
theorem Contains_line (x : Entry) (hx : x.wellFormed = true) (sub : Str) (hlen : sub.length = 5)
    (hsub : ∀ c ∈ sub, isDieDigit c = true) (h : Contains x.line sub = true) :
    sub = x.ident ∨ Contains x.word sub = true := by
  obtain ⟨h1, _, h3, h4, _, _, _⟩ := x.wellFormed_spec hx
  obtain ⟨w0, wrest, hws⟩ := List.exists_cons_of_ne_nil h3
  obtain ⟨c0, crest, hc0⟩ : ∃ c0 crest, sub = c0 :: crest := by
    cases sub with
    | nil => simp at hlen
    | cons c0 crest => exact ⟨c0, crest, rfl⟩
  unfold Entry.line at h
  rcases Contains_append_cases _ _ _ h with h5 | h5 | ⟨s1, s2, hs1, _, hs, ⟨p, hp⟩, _⟩
  · rcases Contains_append_cases _ _ _ h5 with h6 | h6 | ⟨t1, t2, _, ht2, ht, _, ⟨q, hq⟩⟩
    · obtain ⟨a, b, hab⟩ := (Contains_iff _ _).1 h6
      have hl := congrArg List.length hab
      simp only [List.length_append] at hl
      have ha : a = [] := List.length_eq_zero.1 (by omega)
      have hb : b = [] := List.length_eq_zero.1 (by omega)
      rw [ha, hb] at hab
      exact Or.inl (by simpa using hab.symm)
    · exfalso
      obtain ⟨a, b, hab⟩ := (Contains_iff _ _).1 h6
      exact digits_not_in_ws sub x.ws c0 hsub h4 (by rw [hc0]; exact List.mem_cons_self _ _)
        (by rw [hab, hc0]; simp)
    · exfalso
      obtain ⟨d0, drest, hd0⟩ := List.exists_cons_of_ne_nil ht2
      exact digits_not_in_ws sub x.ws d0 hsub h4 (by rw [ht, hd0]; simp) (by rw [hq, hd0]; simp)
  · exact Or.inr h5
  · exfalso
    obtain ⟨d0, drest, hd0⟩ := List.exists_cons_of_ne_nil hs1
    rcases List.append_eq_append_iff.1 hp with ⟨a1, _, h7⟩ | ⟨c1, _, h7⟩
    · exact digits_not_in_ws sub x.ws d0 hsub h4 (by rw [hs, hd0]; simp) (by rw [h7, hd0]; simp)
    · exact digits_not_in_ws sub x.ws w0 hsub h4 (by rw [hs, h7, hws]; simp)
        (by rw [hws]; exact List.mem_cons_self _ _)

theorem line_no_newline (e : Entry) (h : e.wellFormed = true) : (10 : Byte) ∉ e.line := by
  obtain ⟨_, h2, _, h4, _, _, h6⟩ := e.wellFormed_spec h
  intro hm
  simp only [Entry.line, List.mem_append] at hm
  rcases hm with (hm | hm) | hm
  · exact (isDieDigit_spec _ (h2 _ hm)).2.2.2.2 rfl
  · exact (h4 _ hm).2 rfl
  · have := h6 _ hm
    revert this
    decide

theorem Join_append_empty (sep : Str) : ∀ (ws : List Str), ws ≠ [] →
    Join (ws ++ [[]]) sep = Join ws sep ++ sep := by
  intro ws
  induction ws with
  | nil => intro h; exact absurd rfl h
  | cons a t ih =>
    intro _
    cases t with
    | nil => simp [Join]
    | cons b rest =>
      have h := ih (by simp)
      simp only [List.cons_append] at h ⊢
      simp only [Join, h, List.append_assoc]

/-- The lines of the text of a list of well-formed entries are the lines of the
entries, followed by an empty line when the text ends in a line feed. -/
theorem Split_wordlistOf (es : List Entry) (eol : Bool) (hne : es ≠ [])
    (hwf : ∀ x ∈ es, x.wellFormed = true) :
    Split (wordlistOf es eol) (bytesOf "\n") =
      es.map Entry.line ++ (if eol then [[]] else []) := by
  have hnl : bytesOf "\n" = [10] := by decide
  have hlines : ∀ w ∈ es.map Entry.line, (10 : Byte) ∉ w := by
    intro w hw
    obtain ⟨x, hx, rfl⟩ := List.mem_map.1 hw
    exact line_no_newline x (hwf x hx)
  have hne1 : es.map Entry.line ≠ [] := by simpa using hne
  unfold wordlistOf
  rw [hnl]
  cases eol with
  | false =>
    simp only [Bool.false_eq_true, if_false, List.append_nil]
    exact Split_Join_single 10 (es.map Entry.line) hne1 hlines
  | true =>
    simp only [if_true]
    rw [← Join_append_empty [10] (es.map Entry.line) hne1]
    exact Split_Join_single 10 (es.map Entry.line ++ [[]]) (by simp) (by
      intro w hw
      rcases List.mem_append.1 hw with h1 | h1
      · exact hlines w h1
      · simp only [List.mem_singleton] at h1
        rw [h1]
        simp)

/-- In lines that start with the lines of well-formed entries `pre` and the line
of the well-formed entry `e`, where no entry of `pre` has the identifier of `e`,
the loop of `find` returns for that identifier the word of the first entry of
`pre` whose word contains the identifier, and the word of `e` when there is
none; the lines behind `e` are not looked at. -/
theorem findLoop_entries (e : Entry) (rest : List Str) (hewf : e.wellFormed = true) :
    ∀ (pre : List Entry), (∀ x ∈ pre, x.wellFormed = true) →
    (∀ x ∈ pre, x.ident ≠ e.ident) →
    findLoop e.ident (pre.map Entry.line ++ e.line :: rest) =
      .ret (match pre.find? (fun x => Contains x.word e.ident) with
        | some x => x.word
        | none => e.word) := by
  obtain ⟨he1, he2, _, _, _, he5, he6⟩ := e.wellFormed_spec hewf
  intro pre
  induction pre with
  | nil =>
    intro _ _
    have hshape := idWordLineMatch_line e hewf
    have hcont : Contains e.line e.ident = true :=
      (Contains_iff _ _).2 ⟨[], e.ws ++ e.word, by simp [Entry.line]⟩
    have htrim : Trim e.word (bytesOf " ") = e.word := Trim_field e.word he5 he6
    simp only [List.map_nil, List.nil_append, findLoop, hshape, hcont, Bool.and_self, if_true,
      Fields_line e hewf, List.find?_nil]
    simp only [List.getElem?_cons_succ, List.getElem?_cons_zero, htrim]
  | cons x pre ih =>
    intro hwf hid
    have hx := hwf x (List.mem_cons_self _ _)
    by_cases hw : Contains x.word e.ident = true
    · obtain ⟨_, _, _, _, _, hx5, hx6⟩ := x.wellFormed_spec hx
      have hshape := idWordLineMatch_line x hx
      obtain ⟨a, b, hab⟩ := (Contains_iff _ _).1 hw
      have hcont : Contains x.line e.ident = true :=
        (Contains_iff _ _).2 ⟨x.ident ++ x.ws ++ a, b, by simp [Entry.line, hab]⟩
      have htrim : Trim x.word (bytesOf " ") = x.word := Trim_field x.word hx5 hx6
      have hf : (x :: pre).find? (fun x => Contains x.word e.ident) = some x := by
        simp [List.find?, hw]
      rw [hf]
      simp only [List.map_cons, List.cons_append, findLoop, hshape, hcont, Bool.and_self, if_true,
        Fields_line x hx]
      simp only [List.getElem?_cons_succ, List.getElem?_cons_zero, htrim]
    · have hcont : Contains x.line e.ident = false := by
        cases hc : Contains x.line e.ident with
        | false => rfl
        | true =>
          rcases Contains_line x hx e.ident he1 he2 hc with h1 | h1
          · exact absurd h1.symm (hid x (List.mem_cons_self _ _))
          · exact absurd h1 hw
      have hf : (x :: pre).find? (fun x => Contains x.word e.ident) =
          pre.find? (fun x => Contains x.word e.ident) := by
        simp [List.find?, hw]
      rw [hf]
      simp only [List.map_cons, List.cons_append, findLoop, hcont, Bool.and_false,
        Bool.false_eq_true, if_false, List.append_eq]
      exact ih (fun y hy => hwf y (List.mem_cons_of_mem _ hy))
        (fun y hy => hid y (List.mem_cons_of_mem _ hy))

/-- The lookup of the identifier of an entry in a well-formed word list with
unique identifiers, closed by a line feed or not. -/
theorem find_entries (pre post : List Entry) (e : Entry) (eol : Bool)
    (hwf : ∀ x ∈ pre ++ e :: post, x.wellFormed = true)
    (hnodup : ((pre ++ e :: post).map Entry.ident).Nodup) :
    find e.ident (wordlistOf (pre ++ e :: post) eol) =
      .ret (match pre.find? (fun x => Contains x.word e.ident) with
        | some x => x.word
        | none => e.word) := by
  have hid : ∀ x ∈ pre, x.ident ≠ e.ident := by
    intro x hx hxe
    rw [List.map_append, List.map_cons] at hnodup
    have hdis := (List.nodup_append.1 hnodup).2.2
    exact hdis (List.mem_map_of_mem _ hx) (by rw [hxe]; exact List.mem_cons_self _ _)
  unfold find
  rw [Split_wordlistOf _ eol (by simp) hwf, List.map_append, List.map_cons, List.append_assoc,
    List.cons_append]
  exact findLoop_entries e _ (hwf e (by simp)) pre
    (fun x hx => hwf x (List.mem_append_left _ hx)) hid

/-! ### The first qualifying line -/

/-- What `findLoop` does: it looks at the first line, in order, that has the entry
shape and contains the token; it returns the empty string when there is none,
the second field of that line when the line has one, and panics otherwise. -/
theorem findLoop_first (tofind : Str) (ls : List Str) :
    findLoop tofind ls =
      match ls.find? (fun l => idWordLineMatch l && Contains l tofind) with
      | none => .ret []
      | some l =>
        match (Fields l)[1]? with
        | some f => .ret f
        | none => .panic := by
  induction ls with
  | nil => rfl
  | cons l ls ih =>
    by_cases hq : (idWordLineMatch l && Contains l tofind) = true
    · simp only [findLoop, hq, if_true, List.find?_cons_of_pos]
      cases hf : (Fields l)[1]? with
      | none => rfl
      | some f =>
        obtain ⟨h1, h2⟩ := Fields_spec l f (List.getElem?_mem hf)
        simp only [Trim_field f h1 (fun c hc => (h2 c hc).1)]
    · simp only [findLoop, hq, Bool.false_eq_true, if_false, List.find?_cons_of_neg,
        not_false_eq_true]
      exact ih

/-! ### Separators that do not overlap themselves -/

/-- A separator of which a proper non-empty end is also a start overlaps itself. -/
theorem overlapsItself_of_border (sep w a : Str) (hw : w ≠ []) (ha : a ≠ [])
    (h1 : sep = w ++ a) (h2 : HasPrefix sep a = true) : overlapsItself sep = true := by
  simp only [overlapsItself, List.any_eq_true, List.mem_range, Bool.and_eq_true,
    decide_eq_true_eq]
  refine ⟨w.length, ?_, List.length_pos.2 hw, ?_⟩
  · have := List.length_pos.2 ha
    rw [h1, List.length_append]
    omega
  · have hd : sep.drop w.length = a := by rw [h1, List.drop_left]
    rw [hd]
    exact h2

/-- Behind a non-empty text that does not contain the separator, a separator that
does not overlap itself cannot start before the text is over. -/
theorem HasPrefix_before_separator (sep w rest : Str) (hw : w ≠ [])
    (hover : overlapsItself sep = false) (hc : Contains w sep = false) :
    HasPrefix (w ++ (sep ++ rest)) sep = false := by
  cases h : HasPrefix (w ++ (sep ++ rest)) sep with
  | false => rfl
  | true =>
    exfalso
    obtain ⟨b, hb⟩ := (HasPrefix_iff _ _).1 h
    rcases List.append_eq_append_iff.1 hb with ⟨a, h1, h2⟩ | ⟨c, h1, _⟩
    · by_cases ha : a = []
      · have hws : Contains w sep = true :=
          (Contains_iff _ _).2 ⟨[], [], by rw [h1, ha]; simp⟩
        rw [hc] at hws
        exact absurd hws (by simp)
      · have hpre : HasPrefix sep a = true := by
          rcases List.append_eq_append_iff.1 h2 with ⟨x, h3, _⟩ | ⟨x, h3, _⟩
          · have hl := congrArg List.length h1
            have hl3 := congrArg List.length h3
            have hwl := List.length_pos.2 hw
            simp only [List.length_append] at hl hl3
            omega
          · exact (HasPrefix_iff _ _).2 ⟨x, h3⟩
        have := overlapsItself_of_border sep w a hw ha h1 hpre
        rw [hover] at this
        exact absurd this (by simp)
    · have hws : Contains w sep = true := (Contains_iff _ _).2 ⟨[], c, by rw [h1]; simp⟩
      rw [hc] at hws
      exact absurd hws (by simp)

theorem Contains_cons_false (a : Byte) (t sep : Str) (h : Contains (a :: t) sep = false) :
    HasPrefix (a :: t) sep = false ∧ Contains t sep = false := by
  simpa [Contains] using h

theorem cut_none (sep w : Str) (h : Contains w sep = false) : cut sep w = none := by
  induction w with
  | nil =>
    have h1 : HasPrefix [] sep = false := by simpa [Contains] using h
    simp [cut, h1]
  | cons a t ih =>
    obtain ⟨h1, h2⟩ := Contains_cons_false a t sep h
    simp [cut, h1, ih h2]

theorem cut_append (sep w rest : Str) (hne : sep ≠ []) (hover : overlapsItself sep = false)
    (h : Contains w sep = false) : cut sep (w ++ (sep ++ rest)) = some (w, rest) := by
  induction w with
  | nil =>
    obtain ⟨c, s, hs⟩ := List.exists_cons_of_ne_nil hne
    have h3 : HasPrefix (sep ++ rest) sep = true := (HasPrefix_iff _ _).2 ⟨rest, rfl⟩
    have h4 : (sep ++ rest).drop sep.length = rest := List.drop_left _ _
    rw [hs] at h3 h4 ⊢
    simp only [List.nil_append, List.cons_append] at h3 h4 ⊢
    simp only [cut, h3, if_true, h4]
  | cons a t ih =>
    have h3 := HasPrefix_before_separator sep (a :: t) rest (by simp) hover h
    simp only [List.cons_append] at h3 ⊢
    simp only [cut, h3, Bool.false_eq_true, if_false, ih (Contains_cons_false a t sep h).2]

theorem splitLoop_Join_words (sep : Str) (hne : sep ≠ []) (hover : overlapsItself sep = false) :
    ∀ (words : List Str), words ≠ [] → (∀ w ∈ words, Contains w sep = false) →
    ∀ n, words.length ≤ n + 1 → splitLoop sep n (Join words sep) = words := by
  intro words
  induction words with
  | nil => intro h; exact absurd rfl h
  | cons a t ih =>
    intro _ hc n hn
    have ha : Contains a sep = false := hc a (List.mem_cons_self _ _)
    cases t with
    | nil =>
      cases n with
      | zero => simp [Join, splitLoop]
      | succ m => simp [Join, splitLoop, cut_none sep a ha]
    | cons b rest =>
      cases n with
      | zero => simp at hn
      | succ m =>
        have hrec := ih (by simp) (fun w hw => hc w (List.mem_cons_of_mem _ hw)) m
          (by simpa using hn)
        simp only [Join, splitLoop, List.append_assoc, cut_append sep a _ hne hover ha, hrec]

/-- Splitting a join of words that do not contain the separator gives the words
back, for a non-empty separator that does not overlap itself. -/
theorem Split_Join_words (sep : Str) (words : List Str) (hne : sep ≠ [])
    (hover : overlapsItself sep = false) (hw : words ≠ [])
    (hc : ∀ w ∈ words, Contains w sep = false) : Split (Join words sep) sep = words := by
  have h := Join_length sep hne words
  simp only [Split, hne, if_false]
  exact splitLoop_Join_words sep hne hover words hw hc _ h

/-- A separator of one byte does not overlap itself. -/
theorem overlapsItself_single (c : Byte) : overlapsItself [c] = false := by
  simp [overlapsItself, List.range_succ]

theorem runeCountLoop_zero : ∀ (t : Str) (k : Nat), runeCountLoop t k = 0 → t.length ≤ k := by
  intro t
  induction t with
  | nil => intro k _; simp
  | cons b t ih =>
    intro k h
    cases k with
    | zero => simp [runeCountLoop] at h
    | succ k =>
      simp only [runeCountLoop] at h
      have := ih k h
      simp only [List.length_cons]
      omega

/-- A first byte that is no continuation byte, followed by continuation bytes
only, does not overlap itself. -/
theorem overlapsItself_rune (b : Byte) (t : Str) (hb : isCont b = false)
    (ht : ∀ c ∈ t, isCont c = true) : overlapsItself (b :: t) = false := by
  cases h : overlapsItself (b :: t) with
  | false => rfl
  | true =>
    exfalso
    simp only [overlapsItself, List.any_eq_true, List.mem_range, Bool.and_eq_true,
      decide_eq_true_eq] at h
    obtain ⟨k, hk, hpos, hpre⟩ := h
    obtain ⟨j, rfl⟩ : ∃ j, k = j + 1 := ⟨k - 1, by omega⟩
    simp only [List.drop_succ_cons, List.length_cons] at hpre hk
    have hj : j < t.length := by omega
    obtain ⟨c, rest, hc⟩ : ∃ c rest, t.drop j = c :: rest := by
      cases hd : t.drop j with
      | nil =>
        have := congrArg List.length hd
        simp only [List.length_drop, List.length_nil] at this
        omega
      | cons c rest => exact ⟨c, rest, rfl⟩
    rw [hc] at hpre
    simp only [HasPrefix, Bool.and_eq_true, beq_iff_eq] at hpre
    have hcm : c ∈ t := List.mem_of_mem_drop (by rw [hc]; exact List.mem_cons_self _ _)
    have := ht c hcm
    rw [← hpre.1, hb] at this
    exact absurd this (by simp)

/-- A separator of one character does not overlap itself. -/
theorem overlapsItself_one_rune (sep : Str) (h : runeCount sep = 1) :
    overlapsItself sep = false := by
  cases sep with
  | nil => simp [runeCount, runeCountLoop] at h
  | cons b t =>
    cases t with
    | nil => exact overlapsItself_single b
    | cons c t =>
      simp only [runeCount, runeCountLoop] at h
      have h0 : runeCountLoop (c :: t) (runeWidth (b :: c :: t) - 1) = 0 := by omega
      have hlen := runeCountLoop_zero _ _ h0
      simp only [List.length_cons] at hlen
      have hw : 2 ≤ seqWidth b.val (c :: t) := by
        have : runeWidth (b :: c :: t) = seqWidth b.val (c :: t) := rfl
        omega
      have hlead := seqWidth_lead b.val (c :: t) hw
      have hb : isCont b = false := by
        simp only [isCont, Bool.and_eq_false_iff, decide_eq_false_iff_not]
        omega
      have htail := seqWidth_tail b.val (c :: t)
      have hfull : (c :: t).take (seqWidth b.val (c :: t) - 1) = c :: t := by
        apply List.take_of_length_le
        have : runeWidth (b :: c :: t) = seqWidth b.val (c :: t) := rfl
        simp only [List.length_cons]
        omega
      rw [hfull] at htail
      exact overlapsItself_rune b (c :: t) hb htail

/-! ### A source that always delivers the same non-zero value -/

theorem rollDie_const (rng : Entropy) (v : Fin 7) (hv : v.val ≠ 0) (h : ∀ i, rng i 7 = .ok v)
    (f pos : Nat) :
    rollDie rng (die.mk 6 1) (f + 1) pos = .ret (([digitByte v.val], none), pos + 1) := by
  rw [rollDie_six_succ, h]
  simp [hv]

theorem randID_const (rng : Entropy) (v : Fin 7) (hv : v.val ≠ 0) (h : ∀ i, rng i 7 = .ok v)
    (f pos : Nat) :
    randID rng (f + 1) pos = .ret ((List.replicate 5 (digitByte v.val), none), pos + 5) := by
  simp only [randID, maxDieRolls, randIDLoop, rollDie_const rng v hv h, List.nil_append,
    List.cons_append, List.singleton_append, Nat.add_assoc, Join, List.replicate,
    List.append_nil]

theorem randWord_const (rng : Entropy) (v : Fin 7) (hv : v.val ≠ 0) (h : ∀ i, rng i 7 = .ok v)
    (wordlist w : Str) (hw : w ≠ [])
    (hfind : find (List.replicate 5 (digitByte v.val)) wordlist = .ret w) (f pos : Nat) :
    randWord rng (f + 1) wordlist pos = .ret ((w, none), pos + 5) := by
  simp only [randWord, randID_const rng v hv h, hfind]
  simp [hw]

theorem wordsLoop_const (rng : Entropy) (v : Fin 7) (hv : v.val ≠ 0) (h : ∀ i, rng i 7 = .ok v)
    (wordlist w : Str) (hw : w ≠ [])
    (hfind : find (List.replicate 5 (digitByte v.val)) wordlist = .ret w) (f : Nat) :
    ∀ (n : Nat) (acc : List Str) (pos : Nat),
    wordsLoop rng (f + 1) wordlist n acc pos =
      .ret ((acc ++ List.replicate n w, none), pos + 5 * n) := by
  intro n
  induction n with
  | zero => intro acc pos; simp [wordsLoop]
  | succ n ih =>
    intro acc pos
    simp only [wordsLoop, randWord_const rng v hv h wordlist w hw hfind, ih]
    have h1 : acc ++ [w] ++ List.replicate n w = acc ++ List.replicate (n + 1) w := by
      simp [List.replicate_succ]
    have h2 : pos + 5 + 5 * n = pos + 5 * (n + 1) := by omega
    rw [h1, h2]

/-- When every die roll gives the same value, the identifier of that value
resolves to the word `w` and the join of `wordCount` times `w` does not meet the
length requirement, `PassphraseWith` generates again and again: it does not
return, whatever the step budget. -/
theorem PassphraseWith_const_diverges (fs : Files) (rng : Entropy) (v : Fin 7) (hv : v.val ≠ 0)
    (h : ∀ i, rng i 7 = .ok v) (path separator wordlist w : Str) (wc : Int) (hw : w ≠ [])
    (hfs : fs path = .ok wordlist)
    (hcp : checkParams path separator wordlist wc = .ret none)
    (hfind : find (List.replicate 5 (digitByte v.val)) wordlist = .ret w)
    (hmeets : meetsCharReq (Join (List.replicate wc.toNat w) separator) = false) :
    ∀ (fuel pos : Nat), PassphraseWith fs rng fuel pos path separator wc = .diverge := by
  obtain ⟨_, _, _, hwc⟩ := (checkParams_none_iff _ _ _ _).1 hcp
  have hwc6 : 6 ≤ wc := by simpa [DefaultWordCount] using hwc
  obtain ⟨n, hn⟩ : ∃ n, wc.toNat = n + 1 := ⟨wc.toNat - 1, by omega⟩
  intro fuel
  induction fuel using Nat.strong_induction_on with
  | _ fuel ih =>
    intro pos
    cases fuel with
    | zero =>
      unfold PassphraseWith
      simp only [hfs, hcp, hn, wordsLoop_zero_fuel]
    | succ f =>
      unfold PassphraseWith
      simp only [hfs, hcp, wordsLoop_const rng v hv h wordlist w hw hfind, List.nil_append]
      unfold checkCharReq
      simp only [hmeets, Bool.not_false, if_true]
      cases f with
      | zero => rfl
      | succ g => exact ih g (by omega) _

set_option maxRecDepth 20000

/-! ## The claims -/

/-- C1: whenever `PassphraseWith` returns without an error, the passphrase it
returns has more than 17 characters. -/
theorem passphrase_longer_than_17 (fs : Files) (rng : Entropy) (fuel pos : Nat)
    (path separator : Str) (wordCount : Int) (pass : Str) (pos1 : Nat)
    (h : PassphraseWith fs rng fuel pos path separator wordCount = .ret ((pass, none), pos1)) :
    17 < runeCount pass := by
  obtain ⟨_, _, _, _, _, _, _, hm⟩ := PassphraseWith_ok fs rng path separator wordCount _ _ _ _ h
  exact (meetsCharReq_eq_true pass).1 hm

/-- Witness for C1: the first attempt gives the 11 characters `a-a-a-a-a-a`, which
are discarded, and the second attempt gives a passphrase of 29 characters. -/
theorem passphrase_longer_than_17_witness :
    PassphraseWith (oneFile (bytesOf "11111\ta\n22222\tabcd"))
        (drawsOf fun pos => if pos < 30 then 1 else 2) 3 0 (bytesOf "wl") (bytesOf "-") 6 =
      .ret (((bytesOf "abcd-abcd-abcd-abcd-abcd-abcd"), none), 60) ∧
    17 < runeCount (bytesOf "abcd-abcd-abcd-abcd-abcd-abcd") :=
  ⟨by decide, passphrase_longer_than_17 (oneFile (bytesOf "11111\ta\n22222\tabcd"))
    (drawsOf fun pos => if pos < 30 then 1 else 2) 3 0 (bytesOf "wl") (bytesOf "-") 6
    (bytesOf "abcd-abcd-abcd-abcd-abcd-abcd") 60 (by decide)⟩

/-- C2: `meetsCharReq pass` holds exactly when `pass` has more than 17
characters; a string of 18 characters meets the requirement, strings of 17 and
of 16 characters do not. -/
theorem meetsCharReq_iff (pass : Str) :
    (meetsCharReq pass = true ↔ 17 < runeCount pass) ∧
    meetsCharReq (bytesOf "123456789012345678") = true ∧
    meetsCharReq (bytesOf "12345678901234567") = false ∧
    meetsCharReq (bytesOf "1234567890123456") = false :=
  ⟨meetsCharReq_eq_true pass, by decide, by decide, by decide⟩

/-- Counterexample for C3 as stated: with the two-character separator `--`, which
validation accepts and which overlaps itself, six words `-a-` are joined to a
passphrase that splits into eleven pieces on the separator. -/
theorem split_pieces_counterexample :
    checkParams (bytesOf "wl") (bytesOf "--") (bytesOf "11111\t-a-") 6 = .ret none ∧
    overlapsItself (bytesOf "--") = true ∧
    PassphraseWith (oneFile (bytesOf "11111\t-a-")) (drawsOf fun _ => 1) 1 0 (bytesOf "wl")
        (bytesOf "--") 6 = .ret (((bytesOf "-a----a----a----a----a----a-"), none), 30) ∧
    (Split (bytesOf "-a----a----a----a----a----a-") (bytesOf "--")).length = 11 := by
  decide

/-- C3, amended: for a separator that does not overlap itself (no proper
non-empty end of it is also a start of it, as in `-.` or `, `), and in
particular for every separator of one character, whenever `PassphraseWith`
returns a passphrase successfully, splitting the passphrase on the separator
yields exactly `wordCount` pieces. -/
theorem split_pieces_without_overlap (fs : Files) (rng : Entropy) (fuel pos : Nat)
    (path separator : Str) (wordCount : Int) (pass : Str) (pos1 : Nat)
    (h : PassphraseWith fs rng fuel pos path separator wordCount = .ret ((pass, none), pos1)) :
    (overlapsItself separator = false →
      ((Split pass separator).length : Int) = wordCount) ∧
    (runeCount separator = 1 → ((Split pass separator).length : Int) = wordCount) := by
  obtain ⟨wordlist, words, _, hcp, hlen, hw, hpass, _⟩ :=
    PassphraseWith_ok fs rng path separator wordCount _ _ _ _ h
  obtain ⟨hsep, hin, _, hwc⟩ := (checkParams_none_iff _ _ _ _).1 hcp
  have hwc6 : 6 ≤ wordCount := by simpa [DefaultWordCount] using hwc
  have hc : ∀ w ∈ words, Contains w separator = false := by
    intro w hwm
    obtain ⟨_, wordID, hf⟩ := hw w hwm
    exact find_word_without_separator separator wordlist hsep hin wordID w hf
  have hne : words ≠ [] := by
    intro e
    rw [e] at hlen
    simp only [List.length_nil] at hlen
    omega
  have hmain : overlapsItself separator = false →
      ((Split pass separator).length : Int) = wordCount := by
    intro hover
    rw [hpass, Split_Join_words separator words hsep hover hne hc, hlen]
    omega
  exact ⟨hmain, fun h1 => hmain (overlapsItself_one_rune separator h1)⟩

/-- Witness for the amended C3: eight words joined by the two-character
separator `-.` split into eight pieces, and so do eight words joined by `_`. -/
theorem split_pieces_without_overlap_witness :
    overlapsItself (bytesOf "-.") = false ∧
    PassphraseWith (oneFile (bytesOf "11111\tabc")) (drawsOf fun _ => 1) 1 0 (bytesOf "wl")
        (bytesOf "-.") 8 = .ret ((bytesOf "abc-.abc-.abc-.abc-.abc-.abc-.abc-.abc", none), 40) ∧
    ((Split (bytesOf "abc-.abc-.abc-.abc-.abc-.abc-.abc-.abc") (bytesOf "-.")).length : Int) = 8 ∧
    ((Split (bytesOf "abc_abc_abc_abc_abc_abc_abc_abc") (bytesOf "_")).length : Int) = 8 :=
  ⟨by decide, by decide,
    (split_pieces_without_overlap (oneFile (bytesOf "11111\tabc")) (drawsOf fun _ => 1) 1 0
      (bytesOf "wl") (bytesOf "-.") 8 (bytesOf "abc-.abc-.abc-.abc-.abc-.abc-.abc-.abc") 40
      (by decide)).1 (by decide),
    (split_pieces_without_overlap (oneFile (bytesOf "11111\tabc")) (drawsOf fun _ => 1) 1 0
      (bytesOf "wl") (bytesOf "_") 8 (bytesOf "abc_abc_abc_abc_abc_abc_abc_abc") 40
      (by decide)).2 (by decide)⟩

/-- C4: for a separator that passes the three separator checks, `checkParams`
accepts the word count exactly when it is at least 6, and for a word count below
6 `PassphraseWith` returns the empty string with the error text
`diceware: cannot create passphrase: word count requested is <wc>; must be over 6 words`
(for 4: `... word count requested is 4; must be over 6 words`). -/
theorem wordCount_below_minimum (fs : Files) (rng : Entropy) (fuel pos : Nat)
    (path separator wordlist : Str) (wc : Int)
    (hfs : fs path = .ok wordlist) (hne : separator ≠ [])
    (hin : isInWordlist separator wordlist = .ret false)
    (hal : alumMatch separator = false) :
    (checkParams path separator wordlist wc = .ret none ↔ 6 ≤ wc) ∧
    (wc < 6 →
      checkParams path separator wordlist wc =
        .ret (some ((bytesOf "word count requested is ") ++ FormatInt wc ++
          (bytesOf "; must be over 6 words"))) ∧
      PassphraseWith fs rng fuel pos path separator wc =
        .ret (([], some ((bytesOf "diceware: cannot create passphrase: word count requested is ") ++
          FormatInt wc ++ (bytesOf "; must be over 6 words"))), pos)) ∧
    (wc = 4 →
      PassphraseWith fs rng fuel pos path separator wc =
        .ret (([], some (bytesOf ("diceware: cannot create passphrase: " ++
          "word count requested is 4; must be over 6 words"))), pos)) := by
  have h6 : FormatInt DefaultWordCount = (bytesOf "6") := by decide
  have hs1 : bytesOf "; must be over 6 words" =
      bytesOf "; must be over " ++ (bytesOf "6" ++ bytesOf " words") := by decide
  have hs2 : bytesOf "diceware: cannot create passphrase: word count requested is " =
      bytesOf "diceware: cannot create passphrase: " ++ bytesOf "word count requested is " := by
    decide
  have hcp : wc < 6 → checkParams path separator wordlist wc =
      .ret (some ((bytesOf "word count requested is ") ++ FormatInt wc ++
        (bytesOf "; must be over 6 words"))) := by
    intro hlt
    have hlt1 : wc < DefaultWordCount := hlt
    simp [checkParams, hne, hin, hal, hlt1, h6, hs1]
  have hpw : wc < 6 → PassphraseWith fs rng fuel pos path separator wc =
      .ret (([], some ((bytesOf "diceware: cannot create passphrase: word count requested is ") ++
        FormatInt wc ++ (bytesOf "; must be over 6 words"))), pos) := by
    intro hlt
    unfold PassphraseWith
    simp [hfs, hcp hlt, hs2]
  refine ⟨?_, fun hlt => ⟨hcp hlt, hpw hlt⟩, ?_⟩
  · rw [checkParams_none_iff]
    simp only [ne_eq, hne, not_false_eq_true, hin, hal, true_and, DefaultWordCount, not_lt]
  · intro h4
    have hmsg : (bytesOf "diceware: cannot create passphrase: word count requested is ") ++
        FormatInt 4 ++ (bytesOf "; must be over 6 words") =
        (bytesOf ("diceware: cannot create passphrase: " ++
          "word count requested is 4; must be over 6 words")) := by decide
    rw [hpw (by omega), h4, hmsg]

/-- Witness for C4: the default separator and the word count 4. -/
theorem wordCount_below_minimum_witness :
    PassphraseWith (oneFile (bytesOf "11111\tabc")) (drawsOf fun _ => 1) 1 0 (bytesOf "wl")
        (bytesOf " ") 4 =
      .ret (([], some (bytesOf ("diceware: cannot create passphrase: " ++
        "word count requested is 4; must be over 6 words"))), 0) :=
  (wordCount_below_minimum (oneFile (bytesOf "11111\tabc")) (drawsOf fun _ => 1) 1 0 (bytesOf "wl")
    (bytesOf " ") (bytesOf "11111\tabc") 4 rfl (by decide) (by decide) (by decide)).2.2 rfl

/-- C5: `checkParams` reports the first failing condition in the order empty
separator, separator in the word list, separator with an alphanumeric character,
word count below the minimum: an empty separator gives its error whatever the
word list and the word count are; a separator found in the word list gives the
membership error whatever its characters and the word count are; an alphanumeric
separator not found in the list gives the alphanumeric error whatever the word
count is; and there is no error only when all four conditions pass. -/
theorem checkParams_order (path separator wordlist : Str) (wc : Int) :
    checkParams path [] wordlist wc =
      .ret (some (bytesOf "separator cannot be an empty string")) ∧
    (separator ≠ [] → isInWordlist separator wordlist = .ret true →
      checkParams path separator wordlist wc =
        .ret (some ((bytesOf "separator ") ++ separator ++
          (bytesOf " cannot be a word in the wordlist ") ++ path))) ∧
    (separator ≠ [] → isInWordlist separator wordlist = .ret false →
      alumMatch separator = true →
      checkParams path separator wordlist wc =
        .ret (some ((bytesOf "separator ") ++ separator ++
          (bytesOf " cannot contain alphanumeric characters")))) ∧
    (separator ≠ [] → isInWordlist separator wordlist = .ret false →
      alumMatch separator = false → wc < 6 →
      checkParams path separator wordlist wc =
        .ret (some ((bytesOf "word count requested is ") ++ FormatInt wc ++
          (bytesOf "; must be over 6 words")))) ∧
    (checkParams path separator wordlist wc = .ret none ↔
      separator ≠ [] ∧ isInWordlist separator wordlist = .ret false ∧
        alumMatch separator = false ∧ 6 ≤ wc) := by
  have h6 : FormatInt DefaultWordCount = (bytesOf "6") := by decide
  have hs1 : bytesOf "; must be over 6 words" =
      bytesOf "; must be over " ++ (bytesOf "6" ++ bytesOf " words") := by decide
  refine ⟨by simp [checkParams], ?_, ?_, ?_, ?_⟩
  · intro h1 h2
    simp [checkParams, h1, h2]
  · intro h1 h2 h3
    simp [checkParams, h1, h2, h3]
  · intro h1 h2 h3 h4
    have h5 : wc < DefaultWordCount := h4
    simp [checkParams, h1, h2, h3, h5, h6, hs1]
  · rw [checkParams_none_iff]
    simp only [DefaultWordCount, not_lt]

/-- Witness for C5: with the word count 4, the separator `ab12` gives the
membership error when `ab12` is a word of the list and the alphanumeric error
when it is not. -/
theorem checkParams_order_witness :
    checkParams (bytesOf "wl") (bytesOf "ab12") (bytesOf "11111\tab12") 4 =
      .ret (some (bytesOf "separator ab12 cannot be a word in the wordlist wl")) ∧
    checkParams (bytesOf "wl") (bytesOf "ab12") (bytesOf "11111\tapple") 4 =
      .ret (some (bytesOf "separator ab12 cannot contain alphanumeric characters")) :=
  ⟨(checkParams_order (bytesOf "wl") (bytesOf "ab12") (bytesOf "11111\tab12") 4).2.1
      (by decide) (by decide),
    (checkParams_order (bytesOf "wl") (bytesOf "ab12") (bytesOf "11111\tapple") 4).2.2.1
      (by decide) (by decide) (by decide)⟩

/-- Counterexample for C6 as stated: the separator `-` is rejected by
`isInWordlist` for the word list with the single entry `a-b`, although `-` is
not a word of that list. -/
theorem isInWordlist_exact_counterexample :
    isInWordlist (bytesOf "-") (bytesOf "11111\ta-b") = .ret true ∧
    specWords (bytesOf "11111\ta-b") = [(bytesOf "a-b")] ∧
    (bytesOf "-") ∉ specWords (bytesOf "11111\ta-b") := by
  decide

/-- C6, amended: when the lookup of a non-empty separator does not panic,
`isInWordlist` rejects the separator exactly when some line with the entry shape
contains it as a substring; this is the case for every separator equal to a word
of the list; and when it rejects, the error of `checkParams` names the
separator. -/
theorem isInWordlist_substring (path separator wordlist : Str) (wc : Int)
    (hne : separator ≠ []) (hnp : find separator wordlist ≠ .panic) :
    (isInWordlist separator wordlist = .ret true ↔
      ∃ l ∈ Split wordlist (bytesOf "\n"),
        idWordLineMatch l = true ∧ Contains l separator = true) ∧
    (separator ∈ specWords wordlist → isInWordlist separator wordlist = .ret true) ∧
    (isInWordlist separator wordlist = .ret true →
      checkParams path separator wordlist wc =
        .ret (some ((bytesOf "separator ") ++ separator ++
          (bytesOf " cannot be a word in the wordlist ") ++ path))) := by
  have hiff : isInWordlist separator wordlist = .ret true ↔
      ∃ l ∈ Split wordlist (bytesOf "\n"),
        idWordLineMatch l = true ∧ Contains l separator = true := by
    rw [isInWordlist_true_iff]
    constructor
    · rintro ⟨w, hw, hf⟩
      rcases findLoop_ret separator _ w hf with ⟨h1, _⟩ | ⟨_, l, hl, h2, h3, _⟩
      · exact absurd h1 hw
      · exact ⟨l, hl, h2, h3⟩
    · rintro ⟨l, hl, h2, h3⟩
      rcases findLoop_of_mem separator _ l hl h2 h3 with h | h
      · exact absurd h hnp
      · exact h
  refine ⟨hiff, ?_, ?_⟩
  · intro hmem
    rw [hiff]
    simp only [specWords, List.mem_filterMap] at hmem
    obtain ⟨l, hl, hsome⟩ := hmem
    split at hsome
    · rename_i hshape
      exact ⟨l, hl, hshape, Fields_Contains l separator (List.getElem?_mem hsome)⟩
    · simp at hsome
  · intro h
    simp [checkParams, hne, h]

/-- Witness for the amended C6: the separator `?` and a list that has the word `?`. -/
theorem isInWordlist_substring_witness :
    isInWordlist (bytesOf "?") (bytesOf "11111\tabc\n66634\t?") = .ret true ∧
    checkParams (bytesOf "wl") (bytesOf "?") (bytesOf "11111\tabc\n66634\t?") 8 =
      .ret (some (bytesOf "separator ? cannot be a word in the wordlist wl")) :=
  ⟨(isInWordlist_substring (bytesOf "wl") (bytesOf "?") (bytesOf "11111\tabc\n66634\t?") 8
      (by decide) (by decide)).2.1 (by decide),
    (isInWordlist_substring (bytesOf "wl") (bytesOf "?") (bytesOf "11111\tabc\n66634\t?") 8
      (by decide) (by decide)).2.2 (by decide)⟩

/-- C7 fails on the code: for the word list whose last entry `66666 ` has lost
its word, the alphanumeric separator `6` is not rejected with an error, the call
panics in `find` (index 1 of a one-element slice). -/
theorem alnum_separator_panics :
    alumMatch (bytesOf "6") = true ∧
    Fields (bytesOf "66666 ") = [(bytesOf "66666")] ∧
    find (bytesOf "6") (bytesOf "11111\tapple\n66666 \n") = .panic ∧
    PassphraseWith (oneFile (bytesOf "11111\tapple\n66666 \n")) (drawsOf fun _ => 1) 1 0
      (bytesOf "wl") (bytesOf "6") 8 = .panic := by
  decide

/-- C8: when validation rejects the configuration, `PassphraseWith` returns the
error with the random source in the state it had before the call, whatever the
source would have delivered; the rejection is one of the four conditions. -/
theorem rejected_config_draws_nothing (fs : Files) (rng rng2 : Entropy) (fuel fuel2 pos : Nat)
    (path separator wordlist : Str) (wc : Int) (err : Str)
    (hfs : fs path = .ok wordlist)
    (hcp : checkParams path separator wordlist wc = .ret (some err)) :
    PassphraseWith fs rng fuel pos path separator wc =
      .ret (([], some ((bytesOf "diceware: cannot create passphrase: ") ++ err)), pos) ∧
    PassphraseWith fs rng2 fuel2 pos path separator wc =
      PassphraseWith fs rng fuel pos path separator wc ∧
    (separator = [] ∨ isInWordlist separator wordlist = .ret true ∨
      alumMatch separator = true ∨ wc < 6) := by
  have h : ∀ (r : Entropy) (f : Nat), PassphraseWith fs r f pos path separator wc =
      .ret (([], some ((bytesOf "diceware: cannot create passphrase: ") ++ err)), pos) := by
    intro r f
    unfold PassphraseWith
    simp [hfs, hcp]
  refine ⟨h rng fuel, by rw [h rng2 fuel2, h rng fuel], ?_⟩
  by_contra hcon
  simp only [not_or, not_lt, Bool.not_eq_true] at hcon
  obtain ⟨h1, h2, h3, h4⟩ := hcon
  unfold checkParams at hcp
  simp only [h1, if_false] at hcp
  cases hin : isInWordlist separator wordlist with
  | panic => simp [hin] at hcp
  | diverge => simp [hin] at hcp
  | ret b =>
    cases b with
    | true => exact h2 hin
    | false =>
      have h5 : ¬ wc < DefaultWordCount := by simpa [DefaultWordCount] using h4
      simp [hin, h3, h5] at hcp

/-- Witness for C8: the empty separator. -/
theorem rejected_config_draws_nothing_witness :
    PassphraseWith (oneFile (bytesOf "11111\tabc")) (drawsOf fun _ => 1) 1 7 (bytesOf "wl") [] 8 =
      .ret (([], some (bytesOf ("diceware: cannot create passphrase: " ++
        "separator cannot be an empty string"))), 7) :=
  (rejected_config_draws_nothing (oneFile (bytesOf "11111\tabc")) (drawsOf fun _ => 1)
    (drawsOf fun _ => 2) 1 5 7 (bytesOf "wl") [] (bytesOf "11111\tabc") 8
    (bytesOf "separator cannot be an empty string") rfl (by decide)).1

/-- C9: whenever `PassphraseWith` or `Passphrase` returns an error, the string
returned with it is the empty string. -/
theorem error_returns_empty_string (fs : Files) (rng : Entropy) (fuel pos : Nat)
    (path separator : Str) (wordCount : Int) (s e : Str) (pos1 : Nat) :
    (PassphraseWith fs rng fuel pos path separator wordCount = .ret ((s, some e), pos1) →
      s = []) ∧
    (Passphrase fs rng fuel pos path = .ret ((s, some e), pos1) → s = []) :=
  ⟨PassphraseWith_err fs rng path separator wordCount fuel pos s e pos1,
    PassphraseWith_err fs rng path DefaultSeparator DefaultWordCount fuel pos s e pos1⟩

/-- Witness for C9: a word list in which the identifier 11111 is missing. -/
theorem error_returns_empty_string_witness :
    PassphraseWith (oneFile (bytesOf "22222\tabc")) (drawsOf fun _ => 1) 1 0 (bytesOf "wl")
        (bytesOf "-") 6 =
      .ret (([], some (bytesOf ("diceware: cannot choose random word with wordlist wl: " ++
        "cannot find word with the ID: 11111"))), 5) ∧
    ([] : Str) = [] :=
  ⟨by decide, (error_returns_empty_string (oneFile (bytesOf "22222\tabc")) (drawsOf fun _ => 1) 1 0
    (bytesOf "wl") (bytesOf "-") 6 [] (bytesOf ("diceware: cannot choose random word with wordlist wl: " ++
        "cannot find word with the ID: 11111")) 5).1 (by decide)⟩

/-- Counterexample for C10 as stated: a random source that never fails but only
delivers the rejected value 0 keeps the first die roll drawing, so that
`PassphraseWith` does not return, whatever the step budget. -/
theorem empty_wordlist_counterexample :
    (∀ i, ∃ v, drawsOf (fun _ => 0) i 7 = .ok v) ∧
    checkParams (bytesOf "wl") (bytesOf " ") [] 8 = .ret none ∧
    ∀ fuel, PassphraseWith (oneFile []) (drawsOf fun _ => 0) fuel 0 (bytesOf "wl")
      (bytesOf " ") 8 = .diverge := by
  have h0 : ∀ i, drawsOf (fun _ => 0) i 7 = .ok 0 := fun _ => rfl
  refine ⟨fun i => ⟨0, h0 i⟩, by decide, fun fuel => ?_⟩
  have hroll := rollDie_all_zero _ h0
  have hword : ∀ pos, randWord (drawsOf fun _ => 0) fuel [] pos = .diverge := by
    intro pos
    simp [randWord, randID, maxDieRolls, randIDLoop, hroll]
  have hcp : checkParams (bytesOf "wl") (bytesOf " ") [] 8 = .ret none := by decide
  have hfs : oneFile [] (bytesOf "wl") = .ok [] := rfl
  unfold PassphraseWith
  simp only [hfs, hcp]
  have h8 : (8 : Int).toNat = 7 + 1 := by decide
  rw [h8]
  simp [wordsLoop, hword]

/-- C10, amended: for empty word-list content, a valid separator, a word count of
at least 6 and a random source that never fails and delivers five non-zero
values (at the increasing positions `js`), `PassphraseWith` returns, once the
step budget is large enough, the empty string and the not-found error naming
the five-digit identifier that `randID` generated, after that first word
selection. -/
theorem empty_wordlist_not_found (fs : Files) (rng : Entropy) (pos : Nat)
    (path separator : Str) (wc : Int) (js : List Nat)
    (hfs : fs path = .ok []) (hne : separator ≠ []) (hal : alumMatch separator = false)
    (hwc : 6 ≤ wc) (hok : ∀ i, ∃ v, rng i 7 = .ok v)
    (hjs : js.length = 5 ∧ js.Pairwise (fun a b => a < b) ∧
      ∀ j ∈ js, pos ≤ j ∧ rng j 7 ≠ .ok 0) :
    ∃ (wordID : Str) (pos1 fuel0 : Nat), wordID.length = 5 ∧
      (∀ c ∈ wordID, c ∈ bytesOf "123456") ∧
      ∀ fuel, fuel0 ≤ fuel →
        randID rng fuel pos = .ret ((wordID, none), pos1) ∧
        PassphraseWith fs rng fuel pos path separator wc =
          .ret (([], some ((bytesOf "diceware: cannot choose random word with wordlist ") ++ path ++
            (bytesOf ": cannot find word with the ID: ") ++ wordID)), pos1) := by
  obtain ⟨hlen, hsorted, hnz⟩ := hjs
  obtain ⟨ds, pos1, fuel0, hd1, hd2, hd3⟩ := randIDLoop_finds rng hok js 0 [] pos hsorted hnz
  refine ⟨ds, pos1, fuel0, by rw [hd1, hlen], hd2, fun fuel hfuel => ?_⟩
  have hid : randID rng fuel pos = .ret ((ds, none), pos1) := by
    have := hd3 fuel hfuel
    rw [hlen] at this
    simpa [randID, maxDieRolls, Join] using this
  refine ⟨hid, ?_⟩
  have hword : randWord rng fuel [] pos =
      .ret (([], some ((bytesOf "cannot find word with the ID: ") ++ ds)), pos1) := by
    simp [randWord, hid, find_empty_wordlist]
  obtain ⟨n, hn⟩ : ∃ n, wc.toNat = n + 1 := ⟨wc.toNat - 1, by omega⟩
  unfold PassphraseWith
  have hs3 : bytesOf ": cannot find word with the ID: " =
      bytesOf ": " ++ bytesOf "cannot find word with the ID: " := by decide
  simp only [hfs, checkParams_empty_wordlist path separator wc hne hal hwc, hn, wordsLoop, hword]
  simp [hs3]

/-- Witness for the amended C10: the draws 0, 1, 2, 3, 4, 5 give the identifier
12345 after one rejected draw. -/
theorem empty_wordlist_not_found_witness :
    PassphraseWith (oneFile []) (drawsOf fun i => i) 2 0 (bytesOf "wl") (bytesOf " ") 8 =
      .ret (([], some (bytesOf ("diceware: cannot choose random word with wordlist wl: " ++
        "cannot find word with the ID: 12345"))), 6) ∧
    ∃ (wordID : Str) (pos1 fuel0 : Nat), wordID.length = 5 ∧
      (∀ c ∈ wordID, c ∈ bytesOf "123456") ∧
      ∀ fuel, fuel0 ≤ fuel →
        randID (drawsOf fun i => i) fuel 0 = .ret ((wordID, none), pos1) ∧
        PassphraseWith (oneFile []) (drawsOf fun i => i) fuel 0 (bytesOf "wl") (bytesOf " ") 8 =
          .ret (([], some ((bytesOf "diceware: cannot choose random word with wordlist ") ++
            (bytesOf "wl") ++ (bytesOf ": cannot find word with the ID: ") ++ wordID)), pos1) :=
  ⟨by decide, empty_wordlist_not_found (oneFile []) (drawsOf fun i => i) 0 (bytesOf "wl") (bytesOf " ")
    8 [1, 2, 3, 4, 5] rfl (by decide) (by decide) (by decide)
    (fun i => ⟨⟨i % 7, Nat.mod_lt _ (by decide)⟩, rfl⟩)
    ⟨rfl, by decide, by
      intro j hj
      refine ⟨Nat.zero_le _, ?_⟩
      simp only [List.mem_cons, List.mem_singleton, List.not_mem_nil, or_false] at hj
      rcases hj with rfl | rfl | rfl | rfl | rfl <;>
      · intro h
        exact absurd (congrArg (fun x : Except Str (Fin 7) =>
          match x with
          | .ok v => v.val
          | .error _ => 0) h) (by decide)⟩⟩

/-- C11 fails on the code: for the word list with the entry `11111 abc` and a
random source whose every die roll gives 1, `Passphrase` returns successfully
the passphrase `abc abc abc abc abc abc`; splitting it on the separator gives
six times the word `abc`, which are not pairwise distinct. -/
theorem passphrase_repeats_word :
    Passphrase (oneFile (bytesOf "11111\tabc")) (drawsOf fun _ => 1) 1 0 (bytesOf "wl") =
      .ret ((bytesOf "abc abc abc abc abc abc", none), 30) ∧
    Split (bytesOf "abc abc abc abc abc abc") DefaultSeparator =
      [bytesOf "abc", bytesOf "abc", bytesOf "abc", bytesOf "abc", bytesOf "abc",
        bytesOf "abc"] ∧
    ¬ (Split (bytesOf "abc abc abc abc abc abc") DefaultSeparator).Nodup ∧
    (Split (bytesOf "abc abc abc abc abc abc") DefaultSeparator).count (bytesOf "abc") = 6 := by
  decide

/-- Counterexample for C12 as stated: on the outcomes 0, 0, 0, ..., none of which
is a failure, `randID` does not return, whatever the step budget. -/
theorem randID_counterexample :
    (∀ i, ∃ v, drawsOf (fun _ => 0) i 7 = .ok v) ∧
    ∀ fuel, randID (drawsOf fun _ => 0) fuel 0 = .diverge := by
  have h0 : ∀ i, drawsOf (fun _ => 0) i 7 = .ok 0 := fun _ => rfl
  refine ⟨fun i => ⟨0, h0 i⟩, fun fuel => ?_⟩
  simp [randID, maxDieRolls, randIDLoop, rollDie_all_zero _ h0]

/-- C12, amended: on outcomes without a failure whose first five non-zero draws from
`pos` on are at the positions `j1 < j2 < j3 < j4 < j5`, `randID` returns, once
the step budget exceeds the number of draws up to `j5`, the string of exactly
five characters that are the decimal digits of these five draws in order, each
of them one of `1`..`6`, and it has used the draws up to `j5`. -/
theorem randID_first_five_nonzero (rng : Entropy) (pos j1 j2 j3 j4 j5 : Nat)
    (hok : ∀ i, ∃ v, rng i 7 = .ok v)
    (hord : pos ≤ j1 ∧ j1 < j2 ∧ j2 < j3 ∧ j3 < j4 ∧ j4 < j5)
    (hnz : ∀ j ∈ [j1, j2, j3, j4, j5], rawDraw rng j ≠ 0)
    (hzero : ∀ k, pos ≤ k → k < j5 → k ∉ [j1, j2, j3, j4, j5] → rawDraw rng k = 0) :
    (∀ j ∈ [j1, j2, j3, j4, j5],
      FormatInt (rawDraw rng j : Int) = [digitByte (rawDraw rng j)] ∧
      digitByte (rawDraw rng j) ∈ bytesOf "123456") ∧
    ([j1, j2, j3, j4, j5].map fun j => digitByte (rawDraw rng j)).length = 5 ∧
    ∀ fuel, j5 + 1 - pos < fuel →
      randID rng fuel pos =
        .ret (([j1, j2, j3, j4, j5].map fun j => digitByte (rawDraw rng j), none),
          j5 + 1) := by
  obtain ⟨h0, h1, h2, h3, h4⟩ := hord
  refine ⟨fun j hj => ?_, rfl, fun fuel hf => ?_⟩
  · obtain ⟨v, _, hv1, hv2⟩ := rawDraw_ne_zero rng j (hnz j hj)
    rw [← hv1]
    exact ⟨(digit_of_draw v).2.1, (digit_of_draw v).2.2 hv2⟩
  · have hs : [j1, j2, j3, j4, j5].Pairwise (fun a b => a < b) := by
      simp only [List.pairwise_cons, List.mem_cons, List.mem_singleton, List.not_mem_nil,
        or_false, forall_eq_or_imp, forall_eq, IsEmpty.forall_iff, implies_true,
        List.Pairwise.nil, and_true]
      omega
    have hge : ∀ j ∈ [j1, j2, j3, j4, j5], pos ≤ j ∧ rawDraw rng j ≠ 0 := by
      intro j hj
      refine ⟨?_, hnz j hj⟩
      simp only [List.mem_cons, List.mem_singleton, List.not_mem_nil, or_false] at hj
      omega
    have h := randIDLoop_exact rng hok [j1, j2, j3, j4, j5] 0 [] pos hs hge
      (fun k hk1 hk2 hk3 => hzero k hk1 (by
        have hk4 : k < j5 + 1 := by simpa [endOf] using hk2
        have hk5 : k ≠ j5 := fun e => hk3 (by simp [e])
        omega) hk3) fuel
      (by simpa [endOf] using hf)
    simpa [randID, maxDieRolls, Join, endOf] using h

/-- Witness for the amended C12: the draws 0, 1, 2, 3, 4, 5 give `12345`. -/
theorem randID_first_five_nonzero_witness :
    randID (drawsOf fun i => i) 7 0 = .ret (((bytesOf "12345"), none), 6) ∧
    ∀ fuel, 5 + 1 - 0 < fuel →
      randID (drawsOf fun i => i) fuel 0 =
        .ret (([1, 2, 3, 4, 5].map fun j => digitByte (rawDraw (drawsOf fun i => i) j),
          none), 5 + 1) :=
  ⟨by decide, (randID_first_five_nonzero (drawsOf fun i => i) 0 1 2 3 4 5
    (fun i => ⟨⟨i % 7, Nat.mod_lt _ (by decide)⟩, rfl⟩) (by decide) (by decide)
    (fun k _ hk hn => by
      interval_cases k
      · rfl
      all_goals exact absurd (by decide) hn)).2.2⟩

/-- Counterexample for C13 as stated: the die with `minRoll = 3` and `maxRoll = 6`
returns `1` on the draw 1, and 1 is not in the range from 3 to 6. -/
theorem rollDie_minRoll_counterexample :
    (die.mk 6 3).minRoll ≤ (die.mk 6 3).maxRoll ∧
    rollDie (drawsOf fun _ => 1) (die.mk 6 3) 1 0 = .ret ((FormatInt 1, none), 1) ∧
    FormatInt 1 = (bytesOf "1") ∧
    ¬ ((die.mk 6 3).minRoll ≤ 1 ∧ 1 ≤ (die.mk 6 3).maxRoll) ∧
    ∀ v ∈ [(3 : Int), 4, 5, 6], FormatInt v ≠ FormatInt 1 := by
  decide

/-- C13, amended: for every die (with `maxRoll` a Go `int`) a successful `rollDie`
returns the decimal rendering of an integer between 1 and `maxRoll`, whatever
`minRoll` is; this is the range from `minRoll` to `maxRoll` when `minRoll` is at
most 1, as for the die of `randID`. -/
theorem rollDie_between_one_and_maxRoll (rng : Entropy) (d : die) (fuel pos : Nat) (s : Str)
    (pos1 : Nat) (hint : -2 ^ 63 ≤ d.maxRoll ∧ d.maxRoll < 2 ^ 63)
    (h : rollDie rng d fuel pos = .ret ((s, none), pos1)) :
    ∃ v : Int, s = FormatInt v ∧ 1 ≤ v ∧ v ≤ d.maxRoll ∧ (d.minRoll ≤ 1 → d.minRoll ≤ v) := by
  obtain ⟨v, h1, h2, h3⟩ := rollDie_range rng d hint fuel pos s pos1 h
  exact ⟨v, h1, h2, h3, fun hm => le_trans hm h2⟩

/-- Witness for the amended C13: the die of `randID` on the draws 0, 1, ... -/
theorem rollDie_between_one_and_maxRoll_witness :
    rollDie (drawsOf fun i => i) (die.mk 6 1) 2 0 = .ret (((bytesOf "1"), none), 2) ∧
    ∃ v : Int, (bytesOf "1") = FormatInt v ∧ 1 ≤ v ∧ v ≤ (die.mk 6 1).maxRoll ∧
      ((die.mk 6 1).minRoll ≤ 1 → (die.mk 6 1).minRoll ≤ v) :=
  ⟨by decide, rollDie_between_one_and_maxRoll (drawsOf fun i => i) (die.mk 6 1) 2 0 (bytesOf "1") 2
    (by decide) (by decide)⟩

/-- C14: `rollDie` takes its draws from `[0, maxRoll + 1)`; on the draw 0 it draws
again, a non-zero draw is returned as it is (its decimal rendering, no
reduction), a failed draw is reported; for `maxRoll = 6` every digit `1`..`6` is
the result of exactly one of the seven raw values. -/
theorem rollDie_rejects_only_zero (rng : Entropy) (d : die) (fuel pos : Nat)
    (hd : 0 ≤ d.maxRoll ∧ d.maxRoll < 2 ^ 63 - 1) :
    (∀ r : Fin (d.maxRoll + 1).toNat, rng pos (d.maxRoll + 1).toNat = .ok r →
      rollDie rng d (fuel + 1) pos =
        if r.val = 0 then rollDie rng d fuel (pos + 1)
        else .ret ((FormatInt (r.val : Int), none), pos + 1)) ∧
    (∀ err : Str, rng pos (d.maxRoll + 1).toNat = .error err →
      rollDie rng d (fuel + 1) pos =
        .ret (([], some ((bytesOf "cannot source enough entropy: ") ++ err)), pos + 1)) ∧
    (∀ c ∈ bytesOf "123456",
      ∃! r : Fin 7, r.val ≠ 0 ∧ FormatInt (r.val : Int) = [c]) := by
  have hmax : int64 (d.maxRoll + 1) = d.maxRoll + 1 := by
    apply int64_of_range
    · have := hd.1; omega
    · have := hd.2; omega
  have hpos : ¬ d.maxRoll + 1 ≤ 0 := by have := hd.1; omega
  refine ⟨fun r hr => ?_, fun err herr => ?_, by simp only [ExistsUnique]; decide⟩
  · have hrlt : (r.val : Int) < d.maxRoll + 1 := by
      have := r.isLt
      omega
    have hr64 : int64 (r.val : Int) = (r.val : Int) := by
      apply int64_of_range
      · have : (-2 : Int) ^ 63 ≤ 0 := by norm_num
        omega
      · have := hd.2; omega
    rw [rollDie, hmax]
    unfold crInt
    rw [if_neg hpos]
    simp only [hr, hr64]
    by_cases h0 : r.val = 0
    · simp [h0]
    · have : (0 : Int) < (r.val : Int) := by omega
      simp [h0, this]
  · rw [rollDie, hmax]
    unfold crInt
    rw [if_neg hpos]
    simp only [herr]

/-- Witness for C14: the die of `randID` at the draws 0 (rejected) and 1. -/
theorem rollDie_rejects_only_zero_witness :
    rollDie (drawsOf fun i => i) (die.mk 6 1) (1 + 1) 0 =
      rollDie (drawsOf fun i => i) (die.mk 6 1) 1 (0 + 1) ∧
    rollDie (drawsOf fun i => i) (die.mk 6 1) (0 + 1) 1 = .ret ((FormatInt 1, none), 1 + 1) ∧
    FormatInt 1 = (bytesOf "1") :=
  ⟨(rollDie_rejects_only_zero (drawsOf fun i => i) (die.mk 6 1) 1 0 (by decide)).1
      (⟨0, by decide⟩ : Fin 7) rfl,
    (rollDie_rejects_only_zero (drawsOf fun i => i) (die.mk 6 1) 0 1 (by decide)).1
      (⟨1, by decide⟩ : Fin 7) rfl,
    by decide⟩

/-- Counterexample for C15 as stated: in the well-formed list with the lines
`11112 x11111` and `11111 apple`, whose identifiers are unique, the lookup of the
identifier 11111 returns the word `x11111` of the first line, which contains the
identifier, and not the word `apple` of the line with that identifier; with or
without a line feed behind the last line. -/
theorem find_exact_match_counterexample :
    (∀ x ∈ [Entry.mk (bytesOf "11112") (bytesOf "\t") (bytesOf "x11111"),
        Entry.mk (bytesOf "11111") (bytesOf "\t") (bytesOf "apple")], x.wellFormed = true) ∧
    ([Entry.mk (bytesOf "11112") (bytesOf "\t") (bytesOf "x11111"),
        Entry.mk (bytesOf "11111") (bytesOf "\t") (bytesOf "apple")].map Entry.ident).Nodup ∧
    wordlistOf [Entry.mk (bytesOf "11112") (bytesOf "\t") (bytesOf "x11111"),
        Entry.mk (bytesOf "11111") (bytesOf "\t") (bytesOf "apple")] true =
      bytesOf "11112\tx11111\n11111\tapple\n" ∧
    wordlistOf [Entry.mk (bytesOf "11112") (bytesOf "\t") (bytesOf "x11111"),
        Entry.mk (bytesOf "11111") (bytesOf "\t") (bytesOf "apple")] false =
      bytesOf "11112\tx11111\n11111\tapple" ∧
    find (bytesOf "11111") (bytesOf "11112\tx11111\n11111\tapple\n") = .ret (bytesOf "x11111") ∧
    find (bytesOf "11111") (bytesOf "11112\tx11111\n11111\tapple") = .ret (bytesOf "x11111") ∧
    find (bytesOf "11111") (bytesOf "11112\tx11111\n11111\tapple\n") ≠ .ret (bytesOf "apple") ∧
    find (bytesOf "11111") (bytesOf "11112\tx11111\n11111\tapple") ≠ .ret (bytesOf "apple") := by
  decide

/-- C15, amended: in a well-formed word list (every line an identifier of five
digits `1`..`6`, white space, a word; identifiers unique; the last line closed by
a line feed or not), `find` with the identifier of an entry `e` returns the word
of the first line, in file order, whose identifier is that identifier or whose
word contains it: the word of the first entry before `e` whose word contains
the identifier, and the word of `e` when there is none.  So it returns the word
of `e` exactly when the first such earlier entry, if there is one, has the same
word, and in particular whenever the identifier does not occur inside the word of
an earlier line; what the lines behind `e` hold does not matter. -/
theorem find_in_wellformed_list (pre post : List Entry) (e : Entry) (eol : Bool)
    (hwf : ∀ x ∈ pre ++ e :: post, x.wellFormed = true)
    (hnodup : ((pre ++ e :: post).map Entry.ident).Nodup) :
    find e.ident (wordlistOf (pre ++ e :: post) eol) =
      .ret (match pre.find? (fun x => Contains x.word e.ident) with
        | some x => x.word
        | none => e.word) ∧
    (find e.ident (wordlistOf (pre ++ e :: post) eol) = .ret e.word ↔
      ∀ x, pre.find? (fun x => Contains x.word e.ident) = some x → x.word = e.word) ∧
    ((∀ x ∈ pre, Contains x.word e.ident = false) →
      find e.ident (wordlistOf (pre ++ e :: post) eol) = .ret e.word) := by
  have h := find_entries pre post e eol hwf hnodup
  refine ⟨h, ?_, ?_⟩
  · rw [h]
    cases hf : pre.find? (fun x => Contains x.word e.ident) with
    | none => simp
    | some x => simp
  · intro hword
    have hf : pre.find? (fun x => Contains x.word e.ident) = none := by
      rw [List.find?_eq_none]
      intro x hx
      rw [hword x hx]
      simp
    rw [h, hf]

/-- Witness for the amended C15: the identifier 11111 is found although the word
of a later line contains it, in a list closed by a line feed; and the second
entry of a list of three that is not closed by a line feed. -/
theorem find_in_wellformed_list_witness :
    find (bytesOf "11111") (bytesOf "11111\tapple\n11112\tx11111\n") = .ret (bytesOf "apple") ∧
    find (bytesOf "11112") (bytesOf "11111\tapple\n11112 banana\n11113\tcherry") =
      .ret (bytesOf "banana") :=
  ⟨(find_in_wellformed_list [] [Entry.mk (bytesOf "11112") (bytesOf "\t") (bytesOf "x11111")]
      (Entry.mk (bytesOf "11111") (bytesOf "\t") (bytesOf "apple")) true
      (by decide) (by decide)).2.2 (by decide),
    (find_in_wellformed_list [Entry.mk (bytesOf "11111") (bytesOf "\t") (bytesOf "apple")]
      [Entry.mk (bytesOf "11113") (bytesOf "\t") (bytesOf "cherry")]
      (Entry.mk (bytesOf "11112") (bytesOf " ") (bytesOf "banana")) false
      (by decide) (by decide)).2.2 (by decide)⟩

/-- C16 fails on the code: for the token `2` the first line with the entry shape
that contains the token is `v2 `, which has the single field `v2`; `find` does
not return a second field or the empty string there, it panics on index 1,
although the next line `22222 word` qualifies as well. -/
theorem find_first_line_one_field :
    idWordLineMatch (bytesOf "v2 ") = true ∧
    Contains (bytesOf "v2 ") (bytesOf "2") = true ∧
    Fields (bytesOf "v2 ") = [(bytesOf "v2")] ∧
    find (bytesOf "2") (bytesOf "v2 \n22222\tword") = .panic ∧
    find (bytesOf "2") (bytesOf "22222\tword") = .ret (bytesOf "word") := by
  decide

/-- C17: `checkCharReq` returns `pass` itself, with the random source untouched,
when `pass` has more than 17 characters; otherwise it is a fresh run of
`PassphraseWith` with the same path, separator and word count, and a passphrase
returned by that run differs from the rejected `pass`. -/
theorem checkCharReq_keeps_or_regenerates (fs : Files) (rng : Entropy) (fuel pos : Nat)
    (pass path separator : Str) (wordCount : Int) :
    (17 < runeCount pass →
      checkCharReq fs rng fuel pos pass path separator wordCount = .ret ((pass, none), pos)) ∧
    (runeCount pass ≤ 17 →
      checkCharReq fs rng (fuel + 1) pos pass path separator wordCount =
        PassphraseWith fs rng fuel pos path separator wordCount) ∧
    (runeCount pass ≤ 17 → ∀ (s : Str) (pos1 : Nat),
      checkCharReq fs rng fuel pos pass path separator wordCount = .ret ((s, none), pos1) →
      s ≠ pass) := by
  refine ⟨fun h => ?_, fun h => ?_, fun h s pos1 hs => ?_⟩
  · have hm : meetsCharReq pass = true := (meetsCharReq_eq_true pass).2 h
    unfold checkCharReq
    simp [hm]
  · have hm : meetsCharReq pass = false := (meetsCharReq_eq_false pass).2 h
    unfold checkCharReq
    simp [hm]
  · have hm : meetsCharReq pass = false := (meetsCharReq_eq_false pass).2 h
    unfold checkCharReq at hs
    simp only [hm, Bool.not_false, if_true] at hs
    cases fuel with
    | zero => simp at hs
    | succ f =>
      simp only at hs
      obtain ⟨_, _, _, _, _, _, _, hms⟩ :=
        PassphraseWith_ok fs rng path separator wordCount _ _ _ _ hs
      have hlen := (meetsCharReq_eq_true s).1 hms
      intro e
      rw [e] at hlen
      omega

/-- Witness for C17: the 17 characters `aa bb cc dd ee ff` are rejected and a new
passphrase of eight words is generated; the 28 characters of the other test
passphrase are kept. -/
theorem checkCharReq_keeps_or_regenerates_witness :
    checkCharReq (oneFile (bytesOf "11111\tabc")) (drawsOf fun _ => 1) 2 0
        (bytesOf "dow kraft freon plat fear dr") (bytesOf "wl") (bytesOf " ") 8 =
      .ret (((bytesOf "dow kraft freon plat fear dr"), none), 0) ∧
    checkCharReq (oneFile (bytesOf "11111\tabc")) (drawsOf fun _ => 1) (1 + 1) 0
        (bytesOf "aa bb cc dd ee ff") (bytesOf "wl") (bytesOf " ") 8 =
      PassphraseWith (oneFile (bytesOf "11111\tabc")) (drawsOf fun _ => 1) 1 0
        (bytesOf "wl") (bytesOf " ") 8 ∧
    (bytesOf "abc abc abc abc abc abc abc abc") ≠ (bytesOf "aa bb cc dd ee ff") :=
  ⟨(checkCharReq_keeps_or_regenerates (oneFile (bytesOf "11111\tabc")) (drawsOf fun _ => 1) 2 0
      (bytesOf "dow kraft freon plat fear dr") (bytesOf "wl") (bytesOf " ") 8).1 (by decide),
    (checkCharReq_keeps_or_regenerates (oneFile (bytesOf "11111\tabc")) (drawsOf fun _ => 1) 1 0
      (bytesOf "aa bb cc dd ee ff") (bytesOf "wl") (bytesOf " ") 8).2.1 (by decide),
    (checkCharReq_keeps_or_regenerates (oneFile (bytesOf "11111\tabc")) (drawsOf fun _ => 1) 2 0
      (bytesOf "aa bb cc dd ee ff") (bytesOf "wl") (bytesOf " ") 8).2.2 (by decide)
      (bytesOf "abc abc abc abc abc abc abc abc") 40 (by decide)⟩

/-- C18 fails on the code: the line `11111 ` (an identifier followed only by a
space) has the entry shape and contains the identifier 11111, but it has a
single field, and `find` panics on index 1 instead of reporting that nothing
was found; so do `randWord` and `PassphraseWith` when that identifier is drawn. -/
theorem find_panics_on_one_field :
    idWordLineMatch (bytesOf "11111 ") = true ∧
    Contains (bytesOf "11111 ") (bytesOf "11111") = true ∧
    (Fields (bytesOf "11111 ")).length = 1 ∧
    find (bytesOf "11111") (bytesOf "11111 \n22222\tabc\n") = .panic ∧
    randWord (drawsOf fun _ => 1) 1 (bytesOf "11111 \n22222\tabc\n") 0 = .panic ∧
    PassphraseWith (oneFile (bytesOf "11111 \n22222\tabc\n")) (drawsOf fun _ => 1) 1 0
      (bytesOf "wl") (bytesOf "-") 6 = .panic := by
  decide

/-- C19: for a separator accepted by `checkParams`, no word returned by `find` or
by `randWord` for that word list contains the separator as a substring, and a
passphrase generated with it is the join of words that do not contain it. -/
theorem accepted_separator_not_in_words (path separator wordlist : Str) (wc : Int)
    (hcp : checkParams path separator wordlist wc = .ret none) :
    (∀ (tofind w : Str), find tofind wordlist = .ret w → Contains w separator = false) ∧
    (∀ (rng : Entropy) (fuel pos : Nat) (w : Str) (pos1 : Nat),
      randWord rng fuel wordlist pos = .ret ((w, none), pos1) →
      Contains w separator = false) ∧
    (∀ (fs : Files) (rng : Entropy) (fuel pos : Nat) (pass : Str) (pos1 : Nat),
      fs path = .ok wordlist →
      PassphraseWith fs rng fuel pos path separator wc = .ret ((pass, none), pos1) →
      ∃ words, pass = Join words separator ∧ words.length = wc.toNat ∧
        ∀ w ∈ words, Contains w separator = false) := by
  obtain ⟨hne, hin, _, _⟩ := (checkParams_none_iff _ _ _ _).1 hcp
  have hfind := find_word_without_separator separator wordlist hne hin
  refine ⟨hfind, ?_, ?_⟩
  · intro rng fuel pos w pos1 h
    obtain ⟨_, wordID, hf⟩ := randWord_ok rng fuel wordlist pos w pos1 h
    exact hfind wordID w hf
  · intro fs rng fuel pos pass pos1 hfs h
    obtain ⟨wl, words, hfs1, _, hlen, hw, hpass, _⟩ :=
      PassphraseWith_ok fs rng path separator wc _ _ _ _ h
    rw [hfs] at hfs1
    have hwl : wordlist = wl := Except.ok.inj hfs1
    subst hwl
    refine ⟨words, hpass, hlen, fun w hwm => ?_⟩
    obtain ⟨_, wordID, hf⟩ := hw w hwm
    exact hfind wordID w hf

/-- Witness for C19: the separator `-.` is accepted for a list with the words
`a-b` and `c.d`, and neither word contains it. -/
theorem accepted_separator_not_in_words_witness :
    checkParams (bytesOf "wl") (bytesOf "-.") (bytesOf "11111\ta-b\n22222\tc.d") 6 = .ret none ∧
    find (bytesOf "22222") (bytesOf "11111\ta-b\n22222\tc.d") = .ret (bytesOf "c.d") ∧
    Contains (bytesOf "c.d") (bytesOf "-.") = false :=
  ⟨by decide, by decide,
    (accepted_separator_not_in_words (bytesOf "wl") (bytesOf "-.") (bytesOf "11111\ta-b\n22222\tc.d") 6
      (by decide)).1 (bytesOf "22222") (bytesOf "c.d") (by decide)⟩

/-- Counterexample for C20 as stated: the word list with the single line
`11111<TAB>` followed by the byte `c3`, the separator of the single byte `a9`
and the word count 10 are accepted by validation; every die roll gives 1, the
identifier 11111 resolves to the word `c3`, and every word loop completes with
ten words; but each separator byte completes the word in front of it to one
character, so the joined passphrase has 10 characters, the length requirement is
not met and `PassphraseWith` generates again and again: it does not return,
whatever the step budget. -/
theorem ten_words_counterexample :
    checkParams (bytesOf "wl") [0xA9] (bytesOf "11111\t" ++ [0xC3]) 10 = .ret none ∧
    (∀ i, drawsOf (fun _ => 1) i 7 = .ok 1) ∧
    find (bytesOf "11111") (bytesOf "11111\t" ++ [0xC3]) = .ret [0xC3] ∧
    (∀ fuel pos, wordsLoop (drawsOf fun _ => 1) (fuel + 1) (bytesOf "11111\t" ++ [0xC3]) 10 []
      pos = .ret ((List.replicate 10 [0xC3], none), pos + 50)) ∧
    Join (List.replicate 10 [0xC3]) [0xA9] =
      [0xC3, 0xA9, 0xC3, 0xA9, 0xC3, 0xA9, 0xC3, 0xA9, 0xC3, 0xA9, 0xC3, 0xA9, 0xC3, 0xA9,
        0xC3, 0xA9, 0xC3, 0xA9, 0xC3] ∧
    runeCount (Join (List.replicate 10 [0xC3]) [0xA9]) = 10 ∧
    meetsCharReq (Join (List.replicate 10 [0xC3]) [0xA9]) = false ∧
    ∀ fuel pos, PassphraseWith (oneFile (bytesOf "11111\t" ++ [0xC3])) (drawsOf fun _ => 1)
      fuel pos (bytesOf "wl") [0xA9] 10 = .diverge :=
  ⟨by decide, fun _ => rfl, by decide,
    fun fuel pos => wordsLoop_const (drawsOf fun _ => 1) 1 (by decide) (fun _ => rfl)
      (bytesOf "11111\t" ++ [0xC3]) [0xC3] (by decide) (by decide) fuel 10 [] pos,
    by decide, by decide, by decide,
    PassphraseWith_const_diverges (oneFile (bytesOf "11111\t" ++ [0xC3])) (drawsOf fun _ => 1) 1
      (by decide) (fun _ => rfl) (bytesOf "wl") [0xA9] (bytesOf "11111\t" ++ [0xC3]) [0xC3] 10
      (by decide) rfl (by decide) (by decide) (by decide)⟩

/-- C20, amended: for an accepted separator and a word count of at least 10, when
the separator or the word list is valid UTF-8, no draw fails, the random source
delivers five non-zero draws for every word (at the increasing positions `js`)
and every identifier that these draws can give resolves, the joined passphrase
has at least `wordCount + (wordCount - 1)`, hence at least 19, characters (every
word and the separator are non-empty), it meets the length requirement, and with
a large enough step budget `PassphraseWith` returns it as the result of the
first word loop, with the random source where that loop left it.  Whatever the
random source does, there is no second attempt: the outcome of `PassphraseWith`
is that of its first word loop. -/
theorem ten_words_need_one_attempt (fs : Files) (rng : Entropy) (pos : Nat)
    (path separator wordlist : Str) (wc : Int) (js : List Nat)
    (hfs : fs path = .ok wordlist)
    (hcp : checkParams path separator wordlist wc = .ret none)
    (hvalid : ValidString separator = true ∨ ValidString wordlist = true) (hwc : 10 ≤ wc)
    (hok : ∀ i, ∃ v, rng i 7 = .ok v)
    (hjs : js.length = 5 * wc.toNat ∧ js.Pairwise (fun a b => a < b) ∧
      ∀ j ∈ js, pos ≤ j ∧ rawDraw rng j ≠ 0)
    (hres : ∀ wordID : Str, wordID.length = 5 →
      (∀ c ∈ wordID, ∃ j, pos ≤ j ∧ rawDraw rng j ≠ 0 ∧ c = digitByte (rawDraw rng j)) →
      ∃ w, w ≠ [] ∧ find wordID wordlist = .ret w) :
    ∃ (words : List Str) (pos1 fuel0 : Nat), words.length = wc.toNat ∧
      (∀ w ∈ words, w ≠ []) ∧ separator ≠ [] ∧
      wc + (wc - 1) ≤ (runeCount (Join words separator) : Int) ∧
      19 ≤ runeCount (Join words separator) ∧
      meetsCharReq (Join words separator) = true ∧
      (∀ fuel, fuel0 ≤ fuel →
        wordsLoop rng fuel wordlist wc.toNat [] pos = .ret ((words, none), pos1) ∧
        PassphraseWith fs rng fuel pos path separator wc =
          .ret ((Join words separator, none), pos1)) ∧
      ∀ (rng1 : Entropy) (fuel1 p : Nat),
        PassphraseWith fs rng1 fuel1 p path separator wc =
          match wordsLoop rng1 fuel1 wordlist wc.toNat [] p with
          | .ret ((ws, none), p1) => .ret ((Join ws separator, none), p1)
          | .ret ((_, some err), p1) =>
            .ret (([], some ((bytesOf "diceware: cannot choose random word with wordlist ") ++
              path ++ (bytesOf ": ") ++ err)), p1)
          | .panic => .panic
          | .diverge => .diverge := by
  obtain ⟨hlen, hsorted, hnz⟩ := hjs
  obtain ⟨words, pos1, fuel0, hw1, hw2⟩ :=
    wordsLoop_finds rng wordlist hok wc.toNat js [] pos hlen hsorted hnz hres
  simp only [List.nil_append] at hw2
  obtain ⟨h1, h2, h3, h4, h5, _⟩ := PassphraseWith_first_attempt fs rng fuel0 pos path separator
    wordlist wc words pos1 hfs hcp hvalid hwc (hw2 fuel0 (le_refl _))
  refine ⟨words, pos1, fuel0, hw1, h1, h2, h3, h4, h5, fun fuel hf =>
    ⟨hw2 fuel hf, (PassphraseWith_first_attempt fs rng fuel pos path separator wordlist wc words
      pos1 hfs hcp hvalid hwc (hw2 fuel hf)).2.2.2.2.2⟩, fun rng1 fuel1 p => ?_⟩
  cases hl : wordsLoop rng1 fuel1 wordlist wc.toNat [] p with
  | panic =>
    unfold PassphraseWith
    simp [hfs, hcp, hl]
  | diverge =>
    unfold PassphraseWith
    simp [hfs, hcp, hl]
  | ret r =>
    obtain ⟨⟨ws, e⟩, p1⟩ := r
    cases e with
    | none =>
      exact (PassphraseWith_first_attempt fs rng1 fuel1 p path separator wordlist wc ws p1 hfs hcp
        hvalid hwc hl).2.2.2.2.2
    | some err =>
      unfold PassphraseWith
      simp [hfs, hcp, hl]

/-- Witness for the amended C20: ten words of one letter give the 19 characters
`a-a-a-a-a-a-a-a-a-a`, from the draws 1, 1, 1, ... at the positions 0..49. -/
theorem ten_words_need_one_attempt_witness :
    PassphraseWith (oneFile (bytesOf "11111\ta")) (drawsOf fun _ => 1) 1 0 (bytesOf "wl")
        (bytesOf "-") 10 = .ret (((bytesOf "a-a-a-a-a-a-a-a-a-a"), none), 50) ∧
    ∃ (words : List Str) (pos1 fuel0 : Nat), words.length = (10 : Int).toNat ∧
      (∀ w ∈ words, w ≠ []) ∧ (bytesOf "-") ≠ [] ∧
      (10 : Int) + (10 - 1) ≤ (runeCount (Join words (bytesOf "-")) : Int) ∧
      19 ≤ runeCount (Join words (bytesOf "-")) ∧
      meetsCharReq (Join words (bytesOf "-")) = true ∧
      (∀ fuel, fuel0 ≤ fuel →
        wordsLoop (drawsOf fun _ => 1) fuel (bytesOf "11111\ta") (10 : Int).toNat [] 0 =
          .ret ((words, none), pos1) ∧
        PassphraseWith (oneFile (bytesOf "11111\ta")) (drawsOf fun _ => 1) fuel 0 (bytesOf "wl")
          (bytesOf "-") 10 = .ret ((Join words (bytesOf "-"), none), pos1)) ∧
      ∀ (rng1 : Entropy) (fuel1 p : Nat),
        PassphraseWith (oneFile (bytesOf "11111\ta")) rng1 fuel1 p (bytesOf "wl") (bytesOf "-") 10 =
          match wordsLoop rng1 fuel1 (bytesOf "11111\ta") (10 : Int).toNat [] p with
          | .ret ((ws, none), p1) => .ret ((Join ws (bytesOf "-"), none), p1)
          | .ret ((_, some err), p1) =>
            .ret (([], some ((bytesOf "diceware: cannot choose random word with wordlist ") ++
              (bytesOf "wl") ++ (bytesOf ": ") ++ err)), p1)
          | .panic => .panic
          | .diverge => .diverge :=
  ⟨by decide, ten_words_need_one_attempt (oneFile (bytesOf "11111\ta")) (drawsOf fun _ => 1) 0
    (bytesOf "wl") (bytesOf "-") (bytesOf "11111\ta") 10 (List.range 50) rfl (by decide)
    (Or.inl (by decide)) (by decide) (fun _ => ⟨1, rfl⟩) ⟨rfl, by decide, by decide⟩
    (fun wordID h5 hc => by
      have h1 : ∀ c ∈ wordID, c = 49 := by
        intro c hcm
        obtain ⟨j, _, _, hj⟩ := hc c hcm
        rw [hj]
        rfl
      have hid : wordID = (bytesOf "11111") := by
        match wordID, h5, h1 with
        | [a, b, c, d, e], _, h1 =>
          rw [h1 a (by simp), h1 b (by simp), h1 c (by simp), h1 d (by simp), h1 e (by simp)]
          rfl
      rw [hid]
      exact ⟨(bytesOf "a"), by decide, by decide⟩)⟩

end Dicephrase
